import Mathlib

/-!
# Verification of the valtio-cache synchronization engine

A shallow embedding of the repository's core code:

* `src/plain-deep-clone.ts` — `plainDeepClone`, `isPlainField`
* `src/merge.ts` — `deepMerge`
* `src/sync-db.ts` — `LocalStorageDB` (JSON-coded key-value adapter)
* `src/cache.ts` — the `cache` orchestrator

JavaScript runtime values are modelled by the inductive type `JSVal`:
objects are ordered lists of own, enumerable, string-keyed properties
(the only ones the code ever enumerates); a property is either a data
property or an accessor property.  An accessor carries two flags (has a
getter / has a setter) and the value its getter yields when read; callable
values are a single opaque constructor `vfun` (the code never calls them,
it only tests `typeof`).  Reference identity and aliasing are outside
a value-level model: the in-place mutation the code performs is rendered
as explicit state passing, which agrees with the code on tree-shaped data.
Numbers are modelled as integers (IEEE floating point is not shallowly
embeddable).  Fallible operations (strict-mode TypeError on assigning to
a primitive or reading a property of `null`/`undefined`) return `Except`.
-/

namespace ValtioCache

mutual

/-- A JavaScript runtime value. -/
inductive JSVal where
  | undef : JSVal
  | vnull : JSVal
  | vbool : Bool → JSVal
  | vnum : Int → JSVal
  | vstr : String → JSVal
  | vfun : JSVal
  | varr : List JSVal → JSVal
  | vobj : List (String × JSEntry) → JSVal

/-- An own, enumerable property of an object: a data property holding a
value, or an accessor property (`hasGet`, `hasSet`, and the value the
getter produces when invoked). -/
inductive JSEntry where
  | data : JSVal → JSEntry
  | accessor : Bool → Bool → JSVal → JSEntry

end

namespace JSVal

mutual

/-- Size of a value, the termination measure for the recursive algorithms. -/
def sizeV : JSVal → Nat
  | .varr xs => 1 + sizeL xs
  | .vobj fs => 1 + sizeF fs
  | _ => 1

def sizeL : List JSVal → Nat
  | [] => 0
  | x :: xs => 1 + sizeV x + sizeL xs

def sizeF : List (String × JSEntry) → Nat
  | [] => 0
  | (_, e) :: fs => 1 + sizeE e + sizeF fs

def sizeE : JSEntry → Nat
  | .data v => 1 + sizeV v
  | .accessor _ _ gv => 1 + sizeV gv

end

theorem sizeV_pos (v : JSVal) : 1 ≤ sizeV v := by
  cases v <;> simp [sizeV]

mutual

/-- Structural equality test on values. -/
def beqV : JSVal → JSVal → Bool
  | .undef, b => match b with | .undef => true | _ => false
  | .vnull, b => match b with | .vnull => true | _ => false
  | .vbool a, b => match b with | .vbool a' => a == a' | _ => false
  | .vnum a, b => match b with | .vnum a' => a == a' | _ => false
  | .vstr a, b => match b with | .vstr a' => a == a' | _ => false
  | .vfun, b => match b with | .vfun => true | _ => false
  | .varr xs, b => match b with | .varr ys => beqL xs ys | _ => false
  | .vobj fs, b => match b with | .vobj gs => beqF fs gs | _ => false
termination_by structural a => a

def beqL : List JSVal → List JSVal → Bool
  | [], b => match b with | [] => true | _ => false
  | x :: xs, b => match b with | y :: ys => beqV x y && beqL xs ys | _ => false
termination_by structural a => a

def beqF : List (String × JSEntry) → List (String × JSEntry) → Bool
  | [], b => match b with | [] => true | _ => false
  | (k, e) :: fs, b =>
    match b with
    | (k', e') :: gs => k == k' && beqE e e' && beqF fs gs
    | _ => false
termination_by structural a => a

def beqE : JSEntry → JSEntry → Bool
  | .data v, b => match b with | .data w => beqV v w | _ => false
  | .accessor g s gv, b =>
    match b with
    | .accessor g' s' gv' => g == g' && s == s' && beqV gv gv'
    | _ => false
termination_by structural a => a

end

theorem sizeV_lt_of_mem {x : JSVal} {xs : List JSVal} (h : x ∈ xs) :
    sizeV x < 1 + sizeL xs := by
  induction xs with
  | nil => cases h
  | cons y ys ih =>
    rcases List.mem_cons.mp h with h | h
    · subst h; simp [sizeL]; omega
    · have := ih h; simp [sizeL]; omega

theorem sizeE_lt_of_mem {p : String × JSEntry} {fs : List (String × JSEntry)} (h : p ∈ fs) :
    sizeE p.2 < 1 + sizeF fs := by
  induction fs with
  | nil => cases h
  | cons q qs ih =>
    rcases List.mem_cons.mp h with h | h
    · subst h; simp [sizeF]; omega
    · have := ih h; simp [sizeF]; omega

theorem beqL_iff_of (xs ys : List JSVal)
    (hx : ∀ x ∈ xs, ∀ b, beqV x b = true ↔ x = b) :
    beqL xs ys = true ↔ xs = ys := by
  induction xs generalizing ys with
  | nil => cases ys <;> simp [beqL]
  | cons x xs ih =>
    cases ys with
    | nil => simp [beqL]
    | cons y ys =>
      simp only [beqL, Bool.and_eq_true, List.cons.injEq]
      rw [hx x (List.mem_cons_self x xs) y,
        ih ys (fun z hz => hx z (List.mem_cons_of_mem x hz))]

/-- The value stored inside a property (data value, or the getter's value). -/
def JSEntry.entryPayload : JSEntry → JSVal
  | .data v => v
  | .accessor _ _ gv => gv

theorem sizeV_entryPayload_lt (e : JSEntry) :
    sizeV (JSEntry.entryPayload e) < sizeE e := by
  cases e <;> simp [JSEntry.entryPayload, sizeE]

theorem beqE_iff_of (e e' : JSEntry)
    (hv : ∀ b, beqV (JSEntry.entryPayload e) b = true ↔ JSEntry.entryPayload e = b) :
    beqE e e' = true ↔ e = e' := by
  cases e <;> cases e' <;>
    · simp_all [beqE, JSEntry.entryPayload, beq_iff_eq]
      try tauto

theorem beqF_iff_of (fs gs : List (String × JSEntry))
    (hx : ∀ p ∈ fs, ∀ b, beqV (JSEntry.entryPayload p.2) b = true ↔
      JSEntry.entryPayload p.2 = b) :
    beqF fs gs = true ↔ fs = gs := by
  induction fs generalizing gs with
  | nil => cases gs <;> simp [beqF]
  | cons p fs ih =>
    obtain ⟨k, e⟩ := p
    cases gs with
    | nil => simp [beqF]
    | cons q gs =>
      obtain ⟨k', e'⟩ := q
      simp only [beqF, Bool.and_eq_true, List.cons.injEq, Prod.mk.injEq, beq_iff_eq]
      rw [beqE_iff_of e e' (hx (k, e) (List.mem_cons_self _ _)),
        ih gs (fun z hz => hx z (List.mem_cons_of_mem _ hz))]
      try tauto

theorem beqV_iff : ∀ a b : JSVal, beqV a b = true ↔ a = b := by
  have main : ∀ n, ∀ a b : JSVal, sizeV a ≤ n → (beqV a b = true ↔ a = b) := by
    intro n
    induction n with
    | zero =>
      intro a b h
      exact absurd h (by have := sizeV_pos a; omega)
    | succ n ih =>
      intro a b h
      cases a with
      | undef => cases b <;> simp [beqV]
      | vnull => cases b <;> simp [beqV]
      | vbool x => cases b <;> simp [beqV]
      | vnum x => cases b <;> simp [beqV]
      | vstr x => cases b <;> simp [beqV]
      | vfun => cases b <;> simp [beqV]
      | varr xs =>
        cases b with
        | varr ys =>
          simp only [beqV, JSVal.varr.injEq]
          refine beqL_iff_of xs ys (fun x hx b' => ih x b' ?_)
          have := sizeV_lt_of_mem hx
          simp only [sizeV] at h
          omega
        | undef => simp [beqV]
        | vnull => simp [beqV]
        | vbool y => simp [beqV]
        | vnum y => simp [beqV]
        | vstr y => simp [beqV]
        | vfun => simp [beqV]
        | vobj gs => simp [beqV]
      | vobj fs =>
        cases b with
        | vobj gs =>
          simp only [beqV, JSVal.vobj.injEq]
          refine beqF_iff_of fs gs (fun p hp b' => ih _ b' ?_)
          have h1 := sizeE_lt_of_mem hp
          have h2 := sizeV_entryPayload_lt p.2
          simp only [sizeV] at h
          omega
        | undef => simp [beqV]
        | vnull => simp [beqV]
        | vbool y => simp [beqV]
        | vnum y => simp [beqV]
        | vstr y => simp [beqV]
        | vfun => simp [beqV]
        | varr ys => simp [beqV]
  exact fun a b => main (sizeV a) a b le_rfl

instance : DecidableEq JSVal := fun a b => decidable_of_iff _ (beqV_iff a b)

instance : DecidableEq JSEntry := fun e e' =>
  decidable_of_iff _ (beqE_iff_of e e' (fun b => beqV_iff _ b))

instance {ε α : Type} [DecidableEq ε] [DecidableEq α] : DecidableEq (Except ε α) :=
  fun a b =>
    match a, b with
    | .ok x, .ok y =>
      if h : x = y then .isTrue (by rw [h]) else .isFalse (by simp [h])
    | .error x, .error y =>
      if h : x = y then .isTrue (by rw [h]) else .isFalse (by simp [h])
    | .ok _, .error _ => .isFalse (by simp)
    | .error _, .ok _ => .isFalse (by simp)

/-- JavaScript truthiness (`!x` is the negation of this). -/
def truthy : JSVal → Bool
  | .undef => false
  | .vnull => false
  | .vbool b => b
  | .vnum n => n != 0
  | .vstr s => s != ""
  | _ => true

/-- `typeof x === 'object'` (true for `null`, arrays and plain objects;
false for functions, whose `typeof` is `'function'`). -/
def typeofObject : JSVal → Bool
  | .vnull => true
  | .varr _ => true
  | .vobj _ => true
  | _ => false

/-- `Array.isArray x`. -/
def isArrayV : JSVal → Bool
  | .varr _ => true
  | _ => false

/-- `typeof x === 'function'`. -/
def isFunction : JSVal → Bool
  | .vfun => true
  | _ => false

end JSVal

namespace JSEntry

/-- The value observed when reading the property: a data property yields
its value; an accessor invokes its getter, or yields `undefined` when it
has none. -/
def entryValue : JSEntry → JSVal
  | .data v => v
  | .accessor g _ gv => if g then gv else .undef

end JSEntry

open JSVal JSEntry

/-- First property with the given key (JavaScript objects hold each key
at most once; the list model allows duplicates, and well-formedness
hypotheses rule them out where a claim needs it). -/
def lookupEntry : List (String × JSEntry) → String → Option JSEntry
  | [], _ => none
  | (k, e) :: fs, key => if k = key then some e else lookupEntry fs key

/-- Keys of an object's property list. -/
def keysOf (fs : List (String × JSEntry)) : List String := fs.map Prod.fst

/-- No key occurs twice (always true of a real JavaScript object). -/
def nodupKeys (fs : List (String × JSEntry)) : Prop := (keysOf fs).Nodup

/-- `t[key]`, the value produced by reading a property.  On arrays and
strings, numeric keys index elements and `"length"` reads the length;
elsewhere absent properties read as `undefined`. -/
def getProp : JSVal → String → JSVal
  | .vobj fs, key =>
    match lookupEntry fs key with
    | some e => entryValue e
    | none => .undef
  | .varr xs, key =>
    if key = "length" then .vnum xs.length
    else
      match key.toNat? with
      | some i => if h : i < xs.length then xs.get ⟨i, h⟩ else .undef
      | none => .undef
  | .vstr s, key =>
    if key = "length" then .vnum s.length
    else
      match key.toNat? with
      | some i =>
        if h : i < s.data.length then .vstr (String.mk [s.data.get ⟨i, h⟩]) else .undef
      | none => .undef
  | _, _ => (.undef)

/-- Reading `t[key]` as an expression: throws (strict-mode `TypeError`)
when `t` is `null` or `undefined`. -/
def readProp (t : JSVal) (key : String) : Except Unit JSVal :=
  match t with
  | .undef => .error ()
  | .vnull => .error ()
  | t => .ok (getProp t key)

/-- The assignment `t[key] = v` restricted to a property list: replaces
the first data property with that key, leaves an accessor that has a
setter untouched (the setter runs, the property stays an accessor),
throws on a getter-only accessor (strict mode), appends when absent. -/
def setPropFields : List (String × JSEntry) → String → JSVal → Except Unit (List (String × JSEntry))
  | [], key, v => .ok [(key, .data v)]
  | (k, e) :: fs, key, v =>
    if k = key then
      match e with
      | .data _ => .ok ((k, .data v) :: fs)
      | .accessor g s gv =>
        if s then .ok ((k, .accessor g s gv) :: fs) else .error ()
    else
      (setPropFields fs key v).map (fun fs' => (k, e) :: fs')

/-- Numeric-index assignment into an array, padding with `undefined` when
the index is past the end (JavaScript extends the array with holes). -/
def setIdx : List JSVal → Nat → JSVal → List JSVal
  | [], 0, v => [v]
  | [], i + 1, v => .undef :: setIdx [] i v
  | _ :: xs, 0, v => v :: xs
  | x :: xs, i + 1, v => x :: setIdx xs i v

/-- The assignment `t[key] = v` (strict mode).  Assigning to a primitive,
`null` or `undefined` throws; assigning to a function object succeeds but
expando properties of functions are invisible in the model, as are
non-index properties of arrays. -/
def setProp : JSVal → String → JSVal → Except Unit JSVal
  | .vobj fs, key, v => (setPropFields fs key v).map JSVal.vobj
  | .varr xs, key, v =>
    (match key.toNat? with
     | some i => .ok (.varr (setIdx xs i v))
     | none => .ok (.varr xs))
  | .vfun, _, _ => .ok .vfun
  | _, _, _ => .error ()

/-- After `deepMerge(target[key], value)` has mutated the child object in
place, the parent sees the mutated child through its data property; an
accessor property is not reassigned (the mutation happened behind the
getter and is invisible at this level of the value model). -/
def writeBackFields : List (String × JSEntry) → String → JSVal → List (String × JSEntry)
  | [], _, _ => []
  | (k, e) :: fs, key, v =>
    if k = key then
      match e with
      | .data _ => (k, .data v) :: fs
      | .accessor g s gv => (k, .accessor g s gv) :: fs
    else
      (k, e) :: writeBackFields fs key v

/-- In-place mutation of the child reached by `key`, seen from the parent. -/
def writeBack : JSVal → String → JSVal → JSVal
  | .vobj fs, key, v => .vobj (writeBackFields fs key v)
  | .varr xs, key, v =>
    (match key.toNat? with
     | some i => .varr (setIdx xs i v)
     | none => .varr xs)
  | t, _, _ => t

/-!
## `deepMerge` (src/merge.ts)

```ts
export function deepMerge<T>(target: T, source: any): void {
    for (const key in source) {
        const value = source[key];
        if (
            Array.isArray(value) ||
            typeof value !== 'object' ||
            !(target as any)[key]
        ) {
            (target as any)[key] = value;
            continue;
        }

        // value is object
        deepMerge((target as any)[key], value);
    }
}
```

`for … in` enumerates the source's own enumerable string keys (fields of
an object, indices of an array or string, nothing for primitives,
`null` and `undefined`).  The recursive call mutates `target[key]` in
place; in the value model this is the explicit `writeBack`.
-/

/-- One source string character assigned per index key (a character is a
non-object value, so the assignment branch always fires for it). -/
def assignChars (target : JSVal) (i : Nat) : List Char → Except Unit JSVal
  | [] => .ok target
  | c :: rest =>
    match setProp target (toString i) (.vstr (String.mk [c])) with
    | .error _ => .error ()
    | .ok t' => assignChars t' (i + 1) rest

mutual

/-- `deepMerge(target, source)`: overlays every own enumerable member of
`source` onto `target`; returns the mutated target (the source code acts
by side effect on `target`). -/
def deepMerge (target source : JSVal) : Except Unit JSVal :=
  match source with
  | .vobj fs => mergeFields target fs
  | .varr xs => mergeElems target 0 xs
  | .vstr s => assignChars target 0 s.data
  | _ => .ok target

/-- The per-key loop of `deepMerge` over an object source's fields.  The
value read from `source[key]` is `JSEntry.entryValue`: the data value, or
what the getter yields (`undefined` when the accessor has no getter, in
which case `typeof value !== 'object'` sends it down the plain-assignment
branch). -/
def mergeFields (target : JSVal) : List (String × JSEntry) → Except Unit JSVal
  | [] => .ok target
  | (k, .data v) :: rest =>
    if v.isArrayV || !v.typeofObject then
      match setProp target k v with
      | .error _ => .error ()
      | .ok t' => mergeFields t' rest
    else
      match readProp target k with
      | .error _ => .error ()
      | .ok cur =>
        if !cur.truthy then
          match setProp target k v with
          | .error _ => .error ()
          | .ok t' => mergeFields t' rest
        else
          match deepMerge cur v with
          | .error _ => .error ()
          | .ok merged => mergeFields (writeBack target k merged) rest
  | (k, .accessor g s gv) :: rest =>
    if g then
      if gv.isArrayV || !gv.typeofObject then
        match setProp target k gv with
        | .error _ => .error ()
        | .ok t' => mergeFields t' rest
      else
        match readProp target k with
        | .error _ => .error ()
        | .ok cur =>
          if !cur.truthy then
            match setProp target k gv with
            | .error _ => .error ()
            | .ok t' => mergeFields t' rest
          else
            match deepMerge cur gv with
            | .error _ => .error ()
            | .ok merged => mergeFields (writeBack target k merged) rest
    else
      match setProp target k .undef with
      | .error _ => .error ()
      | .ok t' => mergeFields t' rest

/-- The per-key loop of `deepMerge` over an array source's elements
(keys are the decimal indices). -/
def mergeElems (target : JSVal) (i : Nat) : List JSVal → Except Unit JSVal
  | [] => .ok target
  | value :: rest =>
    if value.isArrayV || !value.typeofObject then
      match setProp target (toString i) value with
      | .error _ => .error ()
      | .ok t' => mergeElems t' (i + 1) rest
    else
      match readProp target (toString i) with
      | .error _ => .error ()
      | .ok cur =>
        if !cur.truthy then
          match setProp target (toString i) value with
          | .error _ => .error ()
          | .ok t' => mergeElems t' (i + 1) rest
        else
          match deepMerge cur value with
          | .error _ => .error ()
          | .ok merged => mergeElems (writeBack target (toString i) merged) (i + 1) rest

end

/-!
## `plainDeepClone` / `isPlainField` (src/plain-deep-clone.ts)

```ts
export function plainDeepClone<T extends object>(target: T): T {
  if (!target) return target;
  const keys = Object.keys(target).filter(key => isPlainField(target, key));
  const result: any = {};
  for (const key of keys) {
    const value = (target as any)[key];
    if (Array.isArray(value)) {
      result[key] = value.map(item =>
        item && typeof item === 'object' ? plainDeepClone(item) : item);
      continue;
    }
    if (typeof value !== 'object' || value === null) {
      result[key] = value;
      continue;
    }
    result[key] = plainDeepClone(value);
  }
  return result;
}

export const isPlainField = (target: object, key: string): boolean => {
  const value = (target as any)[key];
  if (typeof value === 'function') return false;
  const desc = Object.getOwnPropertyDescriptor(target, key);
  if (!desc) return true;
  if (desc.get || desc.set) return false;
  return typeof desc.value !== 'function';
};
```
-/

/-- `Object.getOwnPropertyDescriptor(t, key)`: the own property, if any.
On arrays and strings an in-range index has a data descriptor holding the
element, and `"length"` a data descriptor holding the length. -/
def ownDescriptor : JSVal → String → Option JSEntry
  | .vobj fs, key => lookupEntry fs key
  | .varr xs, key =>
    if key = "length" then some (.data (.vnum xs.length))
    else
      match key.toNat? with
      | some i => if h : i < xs.length then some (.data (xs.get ⟨i, h⟩)) else none
      | none => none
  | .vstr s, key =>
    if key = "length" then some (.data (.vnum s.length))
    else
      match key.toNat? with
      | some i =>
        if h : i < s.data.length then some (.data (.vstr (String.mk [s.data.get ⟨i, h⟩])))
        else none
      | none => none
  | _, _ => none

/-- `isPlainField(target, key)`: not a method, getter or setter. -/
def isPlainField (t : JSVal) (key : String) : Bool :=
  if (getProp t key).isFunction then false
  else
    match ownDescriptor t key with
    | none => true
    | some (.data v) => !v.isFunction
    | some (.accessor g s _) => !(g || s)

/-- `isPlainField` specialised to the own property itself.  For a real
object (each key held once) this is what `isPlainField(target, key)`
computes for that key, see `isPlainField_entry`. -/
def isPlainFieldEntry (e : JSEntry) : Bool :=
  if (JSEntry.entryValue e).isFunction then false
  else
    match e with
    | .data v => !v.isFunction
    | .accessor g s _ => !(g || s)

/-- `Object.keys` of a truthy string: index fields holding the characters
(every one passes the plain-field filter and is copied as a non-object). -/
def strIdxFields (i : Nat) : List Char → List (String × JSEntry)
  | [] => []
  | c :: rest => (toString i, .data (.vstr (String.mk [c]))) :: strIdxFields (i + 1) rest

mutual

/-- `plainDeepClone(target)`: a fresh plain object holding the plain
fields of `target`, recursively filtered.  A falsy input is returned
unchanged.  `Object.keys` of a truthy non-object yields index keys for a
string, and nothing for other primitives and functions. -/
def plainDeepClone (t : JSVal) : JSVal :=
  if !t.truthy then t
  else
    match t with
    | .vobj fs => .vobj (cloneFields fs)
    | .varr xs => .vobj (cloneIdx 0 xs)
    | .vstr s => .vobj (strIdxFields 0 s.data)
    | _ => .vobj []

/-- The key loop of `plainDeepClone` over an object's own properties: a
key is kept when `isPlainField` holds of it (for a data property, its
value is not callable; for an accessor, no getter, no setter, and the
read value `undefined` is not callable — see `cloneFields_keep_iff`), and
the kept value is the value read from the property, cloned. -/
def cloneFields : List (String × JSEntry) → List (String × JSEntry)
  | [] => []
  | (k, .data v) :: rest =>
    if v.isFunction then cloneFields rest
    else (k, .data (cloneValue v)) :: cloneFields rest
  | (k, .accessor g s gv) :: rest =>
    if g || s then cloneFields rest
    else (k, .data .undef) :: cloneFields rest

/-- The key loop of `plainDeepClone` when the cloned value is an array:
`Object.keys` yields the indices, and an element that is a function fails
the plain-field test. -/
def cloneIdx (i : Nat) : List JSVal → List (String × JSEntry)
  | [] => []
  | x :: rest =>
    if x.isFunction then cloneIdx (i + 1) rest
    else (toString i, .data (cloneValue x)) :: cloneIdx (i + 1) rest

/-- The per-value branch of the loop body.  A cloned object value goes
through `plainDeepClone` again; an object is truthy, so this equals
`.vobj (cloneFields fs)`, inlined here (see `cloneValue_obj`). -/
def cloneValue : JSVal → JSVal
  | .varr xs => .varr (cloneItems xs)
  | .vobj fs => .vobj (cloneFields fs)
  | v => v

/-- `value.map(item => item && typeof item === 'object' ? plainDeepClone(item) : item)`. -/
def cloneItems : List JSVal → List JSVal
  | [] => []
  | x :: rest =>
    (if x.truthy && x.typeofObject then plainDeepClone x else x) :: cloneItems rest

end

/-- The inlined object branch of `cloneValue` is the recursive call the
source makes. -/
theorem cloneValue_obj (fs : List (String × JSEntry)) :
    cloneValue (.vobj fs) = plainDeepClone (.vobj fs) := by
  simp [cloneValue, plainDeepClone, JSVal.truthy]

/-!
## The cache orchestrator (src/cache.ts) and the store adapter interface

The valtio substrate is an external collaborator: `proxy` wraps an object
without changing its observable members, and `subscribe` registers a
change listener.  The model keeps the wrap as the identity and records
the registration as the key under which the listener will write; the
synchronous store adapter is a pure read function `get` (the decoded
value `db.get` returns) plus the write trace `notifyWrites` produces.
-/

/-- `export const DEFAULT_PREFIX = 'valtio/v1.0/'`. -/
def DEFAULT_PREFIX : String := "valtio/v1.0/"

/-- A store adapter (`ISyncDB`) as the cache orchestrator sees it: what
`get` returns for each key (`vnull` models a missing entry). -/
structure DBModel where
  get : String → JSVal

/-- The recognised options of `cache` (`CacheOptions`).  `prefix_` is the
source's `prefix` option (`prefix` is a Lean keyword); an omitted option
is `none`.  `proxyFunction`/`subscribeFunction` override which copy of
the valtio primitives is used and are observationally the substrate
itself, so they have no counterpart in the model. -/
structure CacheOptions where
  key : String
  prefix_ : Option String := none
  skipCache : Option Bool := none
  db : Option DBModel := none

/-- What one `cache(...)` call produces: the returned live state, the
store keys read, and the key under which the registered change listener
writes (`none` when no listener was registered). -/
structure CacheResult where
  state : JSVal
  reads : List String
  listenerKey : Option String
deriving DecidableEq

/-- `cache(keyOrOptions, initialObject)`.  `envDb` is the adapter
`injectDb()` resolves from the environment (the `LocalStorageDB` in a
browser, the inert `DumbDb` on a server). -/
def cacheModel (keyOrOptions : String ⊕ CacheOptions) (initialObject : JSVal)
    (envDb : DBModel) : Except Unit CacheResult :=
  let opts : CacheOptions := match keyOrOptions with
    | .inl k => { key := k }
    | .inr o => o
  let prefixVal := opts.prefix_.getD DEFAULT_PREFIX
  let skip := opts.skipCache.getD false
  let db := opts.db.getD envDb
  if skip then
    .ok { state := initialObject, reads := [], listenerKey := none }
  else
    let fullKey := prefixVal ++ opts.key
    let source := if (db.get fullKey).truthy then db.get fullKey else .vobj []
    match deepMerge initialObject source with
    | .error _ => .error ()
    | .ok merged =>
      .ok { state := merged, reads := [fullKey], listenerKey := some fullKey }

/-- The writes the registered listener performs when notified of a
mutation batch: a fresh plain snapshot of the current live state, written
under the orchestration's key; no listener, no write. -/
def notifyWrites (r : CacheResult) (current : JSVal) : List (String × JSVal) :=
  match r.listenerKey with
  | none => []
  | some k => [(k, plainDeepClone current)]

/-!
## Shape predicates on value graphs
-/

/-- Does some own property use this key? -/
def hasKey : List (String × JSEntry) → String → Bool
  | [], _ => false
  | (k, _) :: fs, key => k == key || hasKey fs key

/-- Each key held at most once, as in a real JavaScript object. -/
def nodupKeysB : List (String × JSEntry) → Bool
  | [] => true
  | (k, _) :: fs => !hasKey fs k && nodupKeysB fs

mutual

/-- A plain-data graph: no callable value, no accessor property, each
object a real one (keys unique). -/
def wfPlain : JSVal → Bool
  | .vfun => false
  | .varr xs => wfPlainL xs
  | .vobj fs => nodupKeysB fs && wfPlainF fs
  | _ => true

def wfPlainL : List JSVal → Bool
  | [] => true
  | x :: xs => wfPlain x && wfPlainL xs

def wfPlainF : List (String × JSEntry) → Bool
  | [] => true
  | (_, e) :: fs =>
    (match e with
     | .data v => wfPlain v
     | .accessor _ _ _ => false) && wfPlainF fs

end

mutual

/-- No array element is itself directly an array, at any depth. -/
def noAA : JSVal → Bool
  | .varr xs => noAAItems xs
  | .vobj fs => noAAF fs
  | _ => true

def noAAItems : List JSVal → Bool
  | [] => true
  | x :: xs => !x.isArrayV && noAA x && noAAItems xs

def noAAF : List (String × JSEntry) → Bool
  | [] => true
  | (_, .data v) :: fs => noAA v && noAAF fs
  | (_, .accessor _ _ gv) :: fs => noAA gv && noAAF fs

end

mutual

/-- Some value somewhere in the graph is callable. -/
def containsFun : JSVal → Bool
  | .vfun => true
  | .varr xs => containsFunL xs
  | .vobj fs => containsFunF fs
  | _ => false

def containsFunL : List JSVal → Bool
  | [] => false
  | x :: xs => containsFun x || containsFunL xs

def containsFunF : List (String × JSEntry) → Bool
  | [] => false
  | (_, .data v) :: fs => containsFun v || containsFunF fs
  | (_, .accessor _ _ gv) :: fs => containsFun gv || containsFunF fs

end

mutual

/-- A clean snapshot: every object member anywhere is a data property
whose value is not callable (array elements are left unconstrained:
`plainDeepClone` copies callable array elements verbatim). -/
def cleanV : JSVal → Bool
  | .vobj fs => cleanF fs
  | .varr xs => cleanL xs
  | _ => true

def cleanF : List (String × JSEntry) → Bool
  | [] => true
  | (_, e) :: fs =>
    (match e with
     | .data v => !v.isFunction && cleanV v
     | .accessor _ _ _ => false) && cleanF fs

def cleanL : List JSVal → Bool
  | [] => true
  | x :: xs => cleanV x && cleanL xs

end

/-!
## Pointwise facts about the predicates
-/

theorem hasKey_of_mem {fs : List (String × JSEntry)} {p : String × JSEntry}
    (h : p ∈ fs) : hasKey fs p.1 = true := by
  induction fs with
  | nil => cases h
  | cons q qs ih =>
    rcases List.mem_cons.mp h with h | h
    · subst h; simp [hasKey]
    · simp [hasKey, ih h]

theorem lookupEntry_self_of_nodup {fs : List (String × JSEntry)}
    (hnd : nodupKeysB fs = true) {p : String × JSEntry} (h : p ∈ fs) :
    lookupEntry fs p.1 = some p.2 := by
  induction fs with
  | nil => cases h
  | cons q qs ih =>
    obtain ⟨k, e⟩ := q
    simp only [nodupKeysB, Bool.and_eq_true, Bool.not_eq_true'] at hnd
    rcases List.mem_cons.mp h with h | h
    · subst h; simp [lookupEntry]
    · have hk : k ≠ p.1 := by
        intro hkp
        have := hasKey_of_mem h
        rw [← hkp] at this
        rw [this] at hnd
        exact absurd hnd.1 (by simp)
      simp [lookupEntry, hk, ih hnd.2 h]

theorem wfPlainL_mem {xs : List JSVal} (h : wfPlainL xs = true) {x : JSVal}
    (hx : x ∈ xs) : wfPlain x = true := by
  induction xs with
  | nil => cases hx
  | cons y ys ih =>
    simp only [wfPlainL, Bool.and_eq_true] at h
    rcases List.mem_cons.mp hx with hx | hx
    · subst hx; exact h.1
    · exact ih h.2 hx

theorem wfPlainF_mem {fs : List (String × JSEntry)} (h : wfPlainF fs = true)
    {p : String × JSEntry} (hp : p ∈ fs) :
    ∃ v, p.2 = .data v ∧ wfPlain v = true := by
  induction fs with
  | nil => cases hp
  | cons q qs ih =>
    obtain ⟨k, e⟩ := q
    cases e with
    | data v =>
      simp only [wfPlainF, Bool.and_eq_true] at h
      rcases List.mem_cons.mp hp with hp | hp
      · subst hp; exact ⟨v, rfl, h.1⟩
      · exact ih h.2 hp
    | accessor g s gv =>
      simp [wfPlainF] at h

theorem noAAItems_mem {xs : List JSVal} (h : noAAItems xs = true) {x : JSVal}
    (hx : x ∈ xs) : x.isArrayV = false ∧ noAA x = true := by
  induction xs with
  | nil => cases hx
  | cons y ys ih =>
    simp only [noAAItems, Bool.and_eq_true, Bool.not_eq_true'] at h
    rcases List.mem_cons.mp hx with hx | hx
    · subst hx; exact ⟨h.1.1, h.1.2⟩
    · exact ih h.2 hx

theorem noAAF_mem {fs : List (String × JSEntry)} (h : noAAF fs = true)
    {p : String × JSEntry} (hp : p ∈ fs) : noAA (JSEntry.entryPayload p.2) = true := by
  induction fs with
  | nil => cases hp
  | cons q qs ih =>
    obtain ⟨k, e⟩ := q
    cases e <;>
      · simp only [noAAF, Bool.and_eq_true] at h
        rcases List.mem_cons.mp hp with hp | hp
        · subst hp; exact h.1
        · exact ih h.2 hp

theorem wfPlain_not_fun {v : JSVal} (h : wfPlain v = true) : v.isFunction = false := by
  cases v <;> simp_all [wfPlain, JSVal.isFunction]

/-!
## Cloning a plain-data graph with no array-in-array copies it unchanged
-/

theorem cloneItems_id_of (xs : List JSVal) :
    (∀ x ∈ xs, x.isArrayV = false ∧ cloneValue x = x) → cloneItems xs = xs := by
  induction xs with
  | nil => intro _; simp [cloneItems]
  | cons x rest ih =>
    intro h
    have hx := h x (List.mem_cons_self _ _)
    have hrest := ih (fun z hz => h z (List.mem_cons_of_mem _ hz))
    simp only [cloneItems, hrest]
    cases x with
    | vobj fs =>
      rw [← cloneValue_obj] at *
      simp [JSVal.truthy, JSVal.typeofObject, hx.2]
    | varr ys => exact absurd hx.1 (by simp [JSVal.isArrayV])
    | vbool b => cases b <;> simp [JSVal.truthy, JSVal.typeofObject]
    | _ => simp [JSVal.truthy, JSVal.typeofObject]

theorem cloneFields_id_of (fs : List (String × JSEntry)) :
    (∀ p ∈ fs, ∃ v, p.2 = .data v ∧ v.isFunction = false ∧ cloneValue v = v) →
    cloneFields fs = fs := by
  induction fs with
  | nil => intro _; simp [cloneFields]
  | cons q rest ih =>
    intro h
    obtain ⟨k, e⟩ := q
    obtain ⟨v, he, hvf, hcv⟩ := h (k, e) (List.mem_cons_self _ _)
    simp only at he
    subst he
    have hrest := ih (fun z hz => h z (List.mem_cons_of_mem _ hz))
    simp [cloneFields, isPlainFieldEntry, JSEntry.entryValue, hvf, hcv, hrest]

theorem cloneValue_id : ∀ v : JSVal, wfPlain v = true → noAA v = true → cloneValue v = v := by
  have main : ∀ n, ∀ v : JSVal, sizeV v ≤ n → wfPlain v = true → noAA v = true →
      cloneValue v = v := by
    intro n
    induction n with
    | zero =>
      intro v h
      exact absurd h (by have := sizeV_pos v; omega)
    | succ n ih =>
      intro v hs hwf hAA
      cases v with
      | varr xs =>
        simp only [wfPlain] at hwf
        simp only [noAA] at hAA
        simp only [cloneValue]
        rw [cloneItems_id_of xs (fun x hx => ?_)]
        have hwx := wfPlainL_mem hwf hx
        have hax := noAAItems_mem hAA hx
        refine ⟨hax.1, ih x ?_ hwx hax.2⟩
        have := sizeV_lt_of_mem hx
        simp only [sizeV] at hs
        omega
      | vobj fs =>
        simp only [wfPlain, Bool.and_eq_true] at hwf
        simp only [noAA] at hAA
        simp only [cloneValue]
        rw [cloneFields_id_of fs (fun p hp => ?_)]
        obtain ⟨v, hv, hwv⟩ := wfPlainF_mem hwf.2 hp
        have hav := noAAF_mem hAA hp
        rw [hv] at hav
        simp only [JSEntry.entryPayload] at hav
        refine ⟨v, hv, wfPlain_not_fun hwv, ih v ?_ hwv hav⟩
        have h1 := sizeE_lt_of_mem hp
        rw [hv] at h1
        simp only [sizeE] at h1
        simp only [sizeV] at hs
        omega
      | _ => simp [cloneValue]
  exact fun v => main (sizeV v) v le_rfl

theorem plainDeepClone_id_obj (fs : List (String × JSEntry))
    (hwf : wfPlain (.vobj fs) = true) (hAA : noAA (.vobj fs) = true) :
    plainDeepClone (.vobj fs) = .vobj fs := by
  rw [← cloneValue_obj]
  exact cloneValue_id _ hwf hAA

/-!
## Merging a plain-data object onto an equal object is the identity
-/

theorem setPropFields_self : ∀ (tfs : List (String × JSEntry)) (k : String) (v : JSVal),
    lookupEntry tfs k = some (.data v) → setPropFields tfs k v = .ok tfs := by
  intro tfs
  induction tfs with
  | nil => intro k v h; simp [lookupEntry] at h
  | cons q rest ih =>
    intro k v h
    obtain ⟨k₁, e⟩ := q
    by_cases hk : k₁ = k
    · subst hk
      simp [lookupEntry] at h
      subst h
      simp [setPropFields]
    · simp only [lookupEntry, if_neg hk] at h
      simp [setPropFields, hk, ih k v h, Except.map]

theorem writeBackFields_self : ∀ (tfs : List (String × JSEntry)) (k : String) (e' : JSEntry),
    lookupEntry tfs k = some e' →
    writeBackFields tfs k (JSEntry.entryValue e') = tfs := by
  intro tfs
  induction tfs with
  | nil => intro k e' h; simp [lookupEntry] at h
  | cons q rest ih =>
    intro k e' h
    obtain ⟨k₁, e⟩ := q
    by_cases hk : k₁ = k
    · subst hk
      simp [lookupEntry] at h
      subst h
      cases e <;> simp [writeBackFields, JSEntry.entryValue]
    · simp only [lookupEntry, if_neg hk] at h
      simp [writeBackFields, hk, ih k e' h]

theorem getProp_obj_lookup {fs : List (String × JSEntry)} {k : String} {e : JSEntry}
    (h : lookupEntry fs k = some e) :
    getProp (.vobj fs) k = JSEntry.entryValue e := by
  simp [getProp, h]

theorem mergeFields_self : ∀ (fs tfs : List (String × JSEntry)),
    (∀ p ∈ fs, lookupEntry tfs p.1 = some p.2) →
    wfPlainF fs = true →
    mergeFields (.vobj tfs) fs = .ok (.vobj tfs) := by
  have main : ∀ n, ∀ (fs tfs : List (String × JSEntry)), sizeF fs ≤ n →
      (∀ p ∈ fs, lookupEntry tfs p.1 = some p.2) →
      wfPlainF fs = true →
      mergeFields (.vobj tfs) fs = .ok (.vobj tfs) := by
    intro n
    induction n with
    | zero =>
      intro fs tfs hn _ _
      cases fs with
      | nil => simp [mergeFields]
      | cons q rest =>
        obtain ⟨k, e⟩ := q
        exfalso
        simp only [sizeF] at hn
        omega
    | succ n ih =>
      intro fs tfs hn hsub hwf
      cases fs with
      | nil => simp [mergeFields]
      | cons q rest =>
        obtain ⟨k, e⟩ := q
        obtain ⟨v, he, hwv⟩ := wfPlainF_mem hwf (List.mem_cons_self _ _)
        simp only at he
        subst he
        have hk : lookupEntry tfs k = some (.data v) := hsub _ (List.mem_cons_self _ _)
        have hrest : ∀ p ∈ rest, lookupEntry tfs p.1 = some p.2 :=
          fun p hp => hsub p (List.mem_cons_of_mem _ hp)
        have hwfrest : wfPlainF rest = true := by
          simp only [wfPlainF, Bool.and_eq_true] at hwf
          exact hwf.2
        have hset : setProp (.vobj tfs) k v = .ok (.vobj tfs) := by
          simp [setProp, setPropFields_self tfs k v hk, Except.map]
        have hread : readProp (.vobj tfs) k = .ok v := by
          simp [readProp, getProp_obj_lookup hk, JSEntry.entryValue]
        have hsz : sizeF rest ≤ n := by
          simp only [sizeF] at hn
          omega
        have htail : mergeFields (.vobj tfs) rest = .ok (.vobj tfs) :=
          ih rest tfs hsz hrest hwfrest
        cases v with
        | undef =>
          simp [mergeFields, JSEntry.entryValue, JSVal.isArrayV, JSVal.typeofObject, hset, htail]
        | vbool b =>
          simp [mergeFields, JSEntry.entryValue, JSVal.isArrayV, JSVal.typeofObject, hset, htail]
        | vnum m =>
          simp [mergeFields, JSEntry.entryValue, JSVal.isArrayV, JSVal.typeofObject, hset, htail]
        | vstr s =>
          simp [mergeFields, JSEntry.entryValue, JSVal.isArrayV, JSVal.typeofObject, hset, htail]
        | vfun => exact absurd hwv (by simp [wfPlain])
        | varr xs =>
          simp [mergeFields, JSEntry.entryValue, JSVal.isArrayV, hset, htail]
        | vnull =>
          simp [mergeFields, JSEntry.entryValue, JSVal.isArrayV, JSVal.typeofObject, hread,
            JSVal.truthy, hset, htail]
        | vobj gs =>
          have hwg : nodupKeysB gs = true ∧ wfPlainF gs = true := by
            simp only [wfPlain, Bool.and_eq_true] at hwv
            exact hwv
          have hszg : sizeF gs ≤ n := by
            simp only [sizeF, sizeE, sizeV] at hn
            omega
          have hmm : deepMerge (.vobj gs) (.vobj gs) = .ok (.vobj gs) := by
            simp only [deepMerge]
            exact ih gs gs hszg (fun p hp => lookupEntry_self_of_nodup hwg.1 hp) hwg.2
          have hwb : writeBack (.vobj tfs) k (.vobj gs) = .vobj tfs := by
            have := writeBackFields_self tfs k (.data (.vobj gs)) hk
            simp only [JSEntry.entryValue] at this
            simp [writeBack, this]
          simp [mergeFields, JSEntry.entryValue, JSVal.isArrayV, JSVal.typeofObject, hread,
            JSVal.truthy, hmm, hwb, htail]
  exact fun fs tfs => main (sizeF fs) fs tfs le_rfl

/-!
## Which entry a merge step leaves at each key
-/

/-- The target's own property at `key` is a data property or absent — an
assignment `target[key] = v` then really replaces the member's value
(an accessor property would instead run its setter, or throw without
one). -/
def dataOrAbsentB (tfs : List (String × JSEntry)) (k : String) : Bool :=
  match lookupEntry tfs k with
  | some (.accessor _ _ _) => false
  | _ => true

theorem lookupEntry_setPropFields_ne :
    ∀ {tfs tfs' : List (String × JSEntry)} {k k' : String} {v : JSVal},
    setPropFields tfs k v = .ok tfs' → k' ≠ k →
    lookupEntry tfs' k' = lookupEntry tfs k' := by
  intro tfs
  induction tfs with
  | nil =>
    intro tfs' k k' v h hne
    simp only [setPropFields, Except.ok.injEq] at h
    subst h
    simp [lookupEntry, Ne.symm hne]
  | cons q rest ih =>
    intro tfs' k k' v h hne
    obtain ⟨k₁, e⟩ := q
    by_cases hk : k₁ = k
    · subst hk
      cases e with
      | data w =>
        simp only [setPropFields, if_true, Except.ok.injEq] at h
        subst h
        simp [lookupEntry, Ne.symm hne]
      | accessor g sf gv =>
        by_cases hs : sf = true
        · subst hs
          simp only [setPropFields, if_true, Except.ok.injEq] at h
          subst h
          rfl
        · simp [setPropFields, hs] at h
    · simp only [setPropFields, if_neg hk] at h
      cases hs : setPropFields rest k v with
      | error u => rw [hs] at h; simp [Except.map] at h
      | ok rest' =>
        rw [hs] at h
        simp only [Except.map, Except.ok.injEq] at h
        subst h
        by_cases hk' : k₁ = k'
        · simp [lookupEntry, hk']
        · simp [lookupEntry, hk', ih hs hne]

theorem lookupEntry_setPropFields_self :
    ∀ {tfs tfs' : List (String × JSEntry)} {k : String} {v : JSVal},
    setPropFields tfs k v = .ok tfs' → dataOrAbsentB tfs k = true →
    lookupEntry tfs' k = some (.data v) := by
  intro tfs
  induction tfs with
  | nil =>
    intro tfs' k v h _
    simp only [setPropFields, Except.ok.injEq] at h
    subst h
    simp [lookupEntry]
  | cons q rest ih =>
    intro tfs' k v h hda
    obtain ⟨k₁, e⟩ := q
    by_cases hk : k₁ = k
    · subst hk
      cases e with
      | data w =>
        simp only [setPropFields, if_true, Except.ok.injEq] at h
        subst h
        simp [lookupEntry]
      | accessor g sf gv =>
        simp [dataOrAbsentB, lookupEntry] at hda
    · simp only [setPropFields, if_neg hk] at h
      cases hs : setPropFields rest k v with
      | error u => rw [hs] at h; simp [Except.map] at h
      | ok rest' =>
        rw [hs] at h
        simp only [Except.map, Except.ok.injEq] at h
        subst h
        have hda' : dataOrAbsentB rest k = true := by
          simpa [dataOrAbsentB, lookupEntry, hk] using hda
        simp [lookupEntry, hk, ih hs hda']

theorem lookupEntry_writeBackFields_ne :
    ∀ (tfs : List (String × JSEntry)) (k k' : String) (v : JSVal), k' ≠ k →
    lookupEntry (writeBackFields tfs k v) k' = lookupEntry tfs k' := by
  intro tfs
  induction tfs with
  | nil => intro k k' v hne; rfl
  | cons q rest ih =>
    intro k k' v hne
    obtain ⟨k₁, e⟩ := q
    by_cases hk : k₁ = k
    · subst hk
      cases e <;> simp [writeBackFields, lookupEntry, Ne.symm hne]
    · by_cases hk' : k₁ = k'
      · subst hk'
        simp [writeBackFields, hk, lookupEntry]
      · simp [writeBackFields, hk, lookupEntry, hk', ih k k' v hne]

theorem getProp_truthy_lookup {tfs : List (String × JSEntry)} {k : String}
    (h : (getProp (.vobj tfs) k).truthy = true) :
    ∃ e', lookupEntry tfs k = some e' ∧ JSEntry.entryValue e' = getProp (.vobj tfs) k := by
  cases hl : lookupEntry tfs k with
  | none => rw [getProp, hl] at h; simp [JSVal.truthy] at h
  | some e' => exact ⟨e', rfl, by rw [getProp, hl]⟩

theorem setProp_obj_ok {tfs : List (String × JSEntry)} {k : String} {v t₁ : JSVal}
    (h : setProp (.vobj tfs) k v = .ok t₁) :
    ∃ tfs₁, setPropFields tfs k v = .ok tfs₁ ∧ t₁ = .vobj tfs₁ := by
  simp only [setProp] at h
  cases hs : setPropFields tfs k v with
  | error u => rw [hs] at h; simp [Except.map] at h
  | ok tfs₁ =>
    rw [hs] at h
    simp only [Except.map, Except.ok.injEq] at h
    exact ⟨tfs₁, rfl, h.symm⟩

/-- One step of the per-key loop, for a source member read as `v`: when
it does not throw, the loop continues on the rest with a target whose
other keys are untouched; at the step's own key, an assignment leaves a
data property holding `v` (when the prior member was a data property or
absent), and a recursive merge of a `null` source member into a truthy
target member leaves the member as it was. -/
theorem step_body_split {tfs rest : List (String × JSEntry)} {t' : JSVal}
    {k₁ : String} {v : JSVal}
    (hm : (if v.isArrayV || !v.typeofObject then
        match setProp (.vobj tfs) k₁ v with
        | Except.error _ => Except.error ()
        | Except.ok t₁ => mergeFields t₁ rest
      else
        match readProp (.vobj tfs) k₁ with
        | Except.error _ => Except.error ()
        | Except.ok cur =>
          if !cur.truthy then
            match setProp (.vobj tfs) k₁ v with
            | Except.error _ => Except.error ()
            | Except.ok t₁ => mergeFields t₁ rest
          else
            match deepMerge cur v with
            | Except.error _ => Except.error ()
            | Except.ok merged =>
              mergeFields (writeBack (.vobj tfs) k₁ merged) rest) = Except.ok t') :
    ∃ tfs₁, mergeFields (.vobj tfs₁) rest = .ok t' ∧
      (∀ k', k' ≠ k₁ → lookupEntry tfs₁ k' = lookupEntry tfs k') ∧
      ((v.isArrayV = true ∨ v.typeofObject = false ∨
          (getProp (.vobj tfs) k₁).truthy = false) →
        dataOrAbsentB tfs k₁ = true →
        lookupEntry tfs₁ k₁ = some (.data v)) ∧
      (v = .vnull → (getProp (.vobj tfs) k₁).truthy = true →
        lookupEntry tfs₁ k₁ = lookupEntry tfs k₁) := by
  by_cases hc : (v.isArrayV || !v.typeofObject) = true
  · rw [if_pos hc] at hm
    cases hsp : setProp (.vobj tfs) k₁ v with
    | error u => rw [hsp] at hm; simp at hm
    | ok t₁ =>
      rw [hsp] at hm
      simp only at hm
      obtain ⟨tfs₁, hs, ht₁⟩ := setProp_obj_ok hsp
      subst ht₁
      refine ⟨tfs₁, hm, fun k' hk' => lookupEntry_setPropFields_ne hs hk', ?_, ?_⟩
      · intro _ hda
        exact lookupEntry_setPropFields_self hs hda
      · intro hv _
        subst hv
        simp [JSVal.isArrayV, JSVal.typeofObject] at hc
  · rw [if_neg hc] at hm
    simp only [Bool.or_eq_true, Bool.not_eq_true', Bool.not_eq_true] at hc
    push_neg at hc
    obtain ⟨hcarr, hcobj⟩ := hc
    simp only [readProp] at hm
    by_cases ht : (getProp (.vobj tfs) k₁).truthy = true
    · rw [ht] at hm
      simp only [Bool.not_true, Bool.false_eq_true, if_false] at hm
      cases hd : deepMerge (getProp (.vobj tfs) k₁) v with
      | error u => rw [hd] at hm; simp at hm
      | ok merged =>
        rw [hd] at hm
        simp only at hm
        simp only [writeBack] at hm
        refine ⟨writeBackFields tfs k₁ merged, hm,
          fun k' hk' => lookupEntry_writeBackFields_ne tfs k₁ k' merged hk', ?_, ?_⟩
        · intro hdisj _
          rcases hdisj with h | h | h
          · exact absurd h hcarr
          · exact absurd h hcobj
          · simp [ht] at h
        · intro hv _
          subst hv
          have hd' : deepMerge (getProp (.vobj tfs) k₁) JSVal.vnull =
              .ok (getProp (.vobj tfs) k₁) := rfl
          rw [hd'] at hd
          have hmerged : merged = getProp (.vobj tfs) k₁ := by
            injection hd with hh
            exact hh.symm
          subst hmerged
          obtain ⟨e', hl, he'⟩ := getProp_truthy_lookup ht
          rw [← he']
          rw [writeBackFields_self tfs k₁ e' hl]
    · rw [Bool.not_eq_true] at ht
      rw [ht] at hm
      simp only [Bool.not_false, if_true] at hm
      cases hsp : setProp (.vobj tfs) k₁ v with
      | error u => rw [hsp] at hm; simp at hm
      | ok t₁ =>
        rw [hsp] at hm
        simp only at hm
        obtain ⟨tfs₁, hs, ht₁⟩ := setProp_obj_ok hsp
        subst ht₁
        refine ⟨tfs₁, hm, fun k' hk' => lookupEntry_setPropFields_ne hs hk', ?_, ?_⟩
        · intro _ hda
          exact lookupEntry_setPropFields_self hs hda
        · intro _ htr
          rw [htr] at ht; cases ht

/-- The per-key loop on `(k₁, e) :: rest`, split into its first step and
the rest, with the source member read through `JSEntry.entryValue`. -/
theorem mergeFields_cons_split {tfs rest : List (String × JSEntry)} {t' : JSVal}
    {k₁ : String} {e : JSEntry}
    (hm : mergeFields (.vobj tfs) ((k₁, e) :: rest) = .ok t') :
    ∃ tfs₁, mergeFields (.vobj tfs₁) rest = .ok t' ∧
      (∀ k', k' ≠ k₁ → lookupEntry tfs₁ k' = lookupEntry tfs k') ∧
      (((JSEntry.entryValue e).isArrayV = true ∨
          (JSEntry.entryValue e).typeofObject = false ∨
          (getProp (.vobj tfs) k₁).truthy = false) →
        dataOrAbsentB tfs k₁ = true →
        lookupEntry tfs₁ k₁ = some (.data (JSEntry.entryValue e))) ∧
      (JSEntry.entryValue e = .vnull → (getProp (.vobj tfs) k₁).truthy = true →
        lookupEntry tfs₁ k₁ = lookupEntry tfs k₁) := by
  cases e with
  | data v =>
    simp only [mergeFields] at hm
    exact step_body_split hm
  | accessor g sf gv =>
    cases g with
    | true =>
      simp only [mergeFields, if_true] at hm
      simpa only [JSEntry.entryValue, if_true] using step_body_split hm
    | false =>
      simp only [mergeFields, Bool.false_eq_true, if_false] at hm
      have hm' : (if JSVal.undef.isArrayV || !JSVal.undef.typeofObject then
          match setProp (.vobj tfs) k₁ .undef with
          | Except.error _ => Except.error ()
          | Except.ok t₁ => mergeFields t₁ rest
        else
          match readProp (.vobj tfs) k₁ with
          | Except.error _ => Except.error ()
          | Except.ok cur =>
            if !cur.truthy then
              match setProp (.vobj tfs) k₁ .undef with
              | Except.error _ => Except.error ()
              | Except.ok t₁ => mergeFields t₁ rest
            else
              match deepMerge cur .undef with
              | Except.error _ => Except.error ()
              | Except.ok merged =>
                mergeFields (writeBack (.vobj tfs) k₁ merged) rest) = Except.ok t' := by
        rw [if_pos (by simp [JSVal.isArrayV, JSVal.typeofObject])]
        exact hm
      simpa only [JSEntry.entryValue, Bool.false_eq_true, if_false] using step_body_split hm'

/-- Keys the loop never processes keep their property. -/
theorem mergeFields_preserves_absent :
    ∀ (fs tfs : List (String × JSEntry)) (t' : JSVal) (k : String),
    mergeFields (.vobj tfs) fs = .ok t' → hasKey fs k = false →
    ∃ tfs', t' = .vobj tfs' ∧ lookupEntry tfs' k = lookupEntry tfs k := by
  intro fs
  induction fs with
  | nil =>
    intro tfs t' k hm _
    simp only [mergeFields, Except.ok.injEq] at hm
    exact ⟨tfs, hm.symm, rfl⟩
  | cons q rest ih =>
    intro tfs t' k hm hk
    obtain ⟨k₁, e⟩ := q
    simp only [hasKey, Bool.or_eq_false_iff, beq_eq_false_iff_ne] at hk
    obtain ⟨tfs₁, hrest, hpres, _, _⟩ := mergeFields_cons_split hm
    obtain ⟨tfs', ht', hl⟩ := ih tfs₁ t' k hrest hk.2
    exact ⟨tfs', ht', hl.trans (hpres k (Ne.symm hk.1))⟩

/-- C4's engine: a source member that is an array is assigned wholesale,
and survives the processing of the remaining (distinct) keys. -/
theorem mergeFields_array :
    ∀ (fs tfs : List (String × JSEntry)) (t' : JSVal) (k : String) (e : JSEntry)
      (arr : List JSVal),
    nodupKeysB fs = true →
    lookupEntry fs k = some e →
    JSEntry.entryValue e = .varr arr →
    dataOrAbsentB tfs k = true →
    mergeFields (.vobj tfs) fs = .ok t' →
    getProp t' k = .varr arr := by
  intro fs
  induction fs with
  | nil =>
    intro tfs t' k e arr _ hl
    simp [lookupEntry] at hl
  | cons q rest ih =>
    intro tfs t' k e arr hnd hl hv hda hm
    obtain ⟨k₁, e₁⟩ := q
    simp only [nodupKeysB, Bool.and_eq_true, Bool.not_eq_true'] at hnd
    obtain ⟨tfs₁, hrest, hpres, hassign, _⟩ := mergeFields_cons_split hm
    by_cases hk : k₁ = k
    · subst hk
      simp only [lookupEntry, if_true, Option.some.injEq] at hl
      subst hl
      have h1 : lookupEntry tfs₁ k₁ = some (.data (.varr arr)) := by
        have := hassign (Or.inl (by rw [hv]; rfl)) hda
        rw [hv] at this
        exact this
      obtain ⟨tfs', ht', hl'⟩ := mergeFields_preserves_absent rest tfs₁ t' k₁ hrest hnd.1
      subst ht'
      simp [getProp, hl'.trans h1, JSEntry.entryValue]
    · simp only [lookupEntry, if_neg hk] at hl
      have hp := hpres k (fun hh => hk hh.symm)
      have hda₁ : dataOrAbsentB tfs₁ k = true := by
        unfold dataOrAbsentB at hda ⊢
        rw [hp]
        exact hda
      exact ih tfs₁ t' k e arr hnd.2 hl hv hda₁ hrest

/-- C5(a)'s engine: a source member whose target member is falsy is
assigned directly, whatever it is. -/
theorem mergeFields_falsy :
    ∀ (fs tfs : List (String × JSEntry)) (t' : JSVal) (k : String) (e : JSEntry),
    nodupKeysB fs = true →
    lookupEntry fs k = some e →
    (getProp (.vobj tfs) k).truthy = false →
    dataOrAbsentB tfs k = true →
    mergeFields (.vobj tfs) fs = .ok t' →
    getProp t' k = JSEntry.entryValue e := by
  intro fs
  induction fs with
  | nil =>
    intro tfs t' k e _ hl
    simp [lookupEntry] at hl
  | cons q rest ih =>
    intro tfs t' k e hnd hl hfal hda hm
    obtain ⟨k₁, e₁⟩ := q
    simp only [nodupKeysB, Bool.and_eq_true, Bool.not_eq_true'] at hnd
    obtain ⟨tfs₁, hrest, hpres, hassign, _⟩ := mergeFields_cons_split hm
    by_cases hk : k₁ = k
    · subst hk
      simp only [lookupEntry, if_true, Option.some.injEq] at hl
      subst hl
      have h1 : lookupEntry tfs₁ k₁ = some (.data (JSEntry.entryValue e₁)) :=
        hassign (Or.inr (Or.inr hfal)) hda
      obtain ⟨tfs', ht', hl'⟩ := mergeFields_preserves_absent rest tfs₁ t' k₁ hrest hnd.1
      subst ht'
      simp [getProp, hl'.trans h1, JSEntry.entryValue]
    · simp only [lookupEntry, if_neg hk] at hl
      have hp := hpres k (fun hh => hk hh.symm)
      have hda₁ : dataOrAbsentB tfs₁ k = true := by
        unfold dataOrAbsentB at hda ⊢
        rw [hp]
        exact hda
      have hfal₁ : (getProp (.vobj tfs₁) k).truthy = false := by
        rw [getProp, hp, ← getProp]
        exact hfal
      exact ih tfs₁ t' k e hnd.2 hl hfal₁ hda₁ hrest

/-- C5(b)'s engine: a `null` source member merging into a truthy target
member leaves the member exactly as it was. -/
theorem mergeFields_null :
    ∀ (fs tfs : List (String × JSEntry)) (t' : JSVal) (k : String) (e : JSEntry),
    nodupKeysB fs = true →
    lookupEntry fs k = some e →
    JSEntry.entryValue e = .vnull →
    (getProp (.vobj tfs) k).truthy = true →
    mergeFields (.vobj tfs) fs = .ok t' →
    getProp t' k = getProp (.vobj tfs) k := by
  intro fs
  induction fs with
  | nil =>
    intro tfs t' k e _ hl
    simp [lookupEntry] at hl
  | cons q rest ih =>
    intro tfs t' k e hnd hl hv htr hm
    obtain ⟨k₁, e₁⟩ := q
    simp only [nodupKeysB, Bool.and_eq_true, Bool.not_eq_true'] at hnd
    obtain ⟨tfs₁, hrest, hpres, _, hnull⟩ := mergeFields_cons_split hm
    by_cases hk : k₁ = k
    · subst hk
      simp only [lookupEntry, if_true, Option.some.injEq] at hl
      subst hl
      have h1 : lookupEntry tfs₁ k₁ = lookupEntry tfs k₁ := hnull hv htr
      obtain ⟨tfs', ht', hl'⟩ := mergeFields_preserves_absent rest tfs₁ t' k₁ hrest hnd.1
      subst ht'
      rw [getProp, hl'.trans h1, ← getProp]
    · simp only [lookupEntry, if_neg hk] at hl
      have hp := hpres k (fun hh => hk hh.symm)
      have htr₁ : (getProp (.vobj tfs₁) k).truthy = true := by
        rw [getProp, hp, ← getProp]
        exact htr
      have hgp : getProp (.vobj tfs₁) k = getProp (.vobj tfs) k := by
        rw [getProp, hp, ← getProp]
      rw [← hgp]
      exact ih tfs₁ t' k e hnd.2 hl hv htr₁ hrest

/-!
## What `plainDeepClone` can leave in its result
-/

theorem cloneValue_not_fun {v : JSVal} (h : v.isFunction = false) :
    (cloneValue v).isFunction = false := by
  cases v <;> simp_all [cloneValue, JSVal.isFunction]

theorem cleanF_strIdxFields (cs : List Char) : ∀ i, cleanF (strIdxFields i cs) = true := by
  induction cs with
  | nil => intro i; simp [strIdxFields, cleanF]
  | cons c rest ih =>
    intro i
    simp [strIdxFields, cleanF, cleanV, JSVal.isFunction, ih (i + 1)]

theorem cleanF_cloneFields_of (fs : List (String × JSEntry)) :
    (∀ p ∈ fs, ∀ v, p.2 = .data v → cleanV (cloneValue v) = true) →
    cleanF (cloneFields fs) = true := by
  induction fs with
  | nil => intro _; simp [cloneFields, cleanF]
  | cons q rest ih =>
    intro h
    obtain ⟨k, e⟩ := q
    have hrest := ih (fun z hz => h z (List.mem_cons_of_mem _ hz))
    cases e with
    | data v =>
      by_cases hf : v.isFunction = true
      · simp [cloneFields, hf, hrest]
      · rw [Bool.not_eq_true] at hf
        have hv := h (k, .data v) (List.mem_cons_self _ _) v rfl
        simp [cloneFields, hf, cleanF, cloneValue_not_fun hf, hv, hrest]
    | accessor g sf gv =>
      by_cases hgs : (g || sf) = true
      · simp [cloneFields, hgs, hrest]
      · simp [cloneFields, hgs, cleanF, cleanV, JSVal.isFunction, hrest]

theorem cleanF_cloneIdx_of (xs : List JSVal) :
    (∀ x ∈ xs, cleanV (cloneValue x) = true) →
    ∀ i, cleanF (cloneIdx i xs) = true := by
  induction xs with
  | nil => intro _ i; simp [cloneIdx, cleanF]
  | cons x rest ih =>
    intro h i
    have hrest := ih (fun z hz => h z (List.mem_cons_of_mem _ hz)) (i + 1)
    by_cases hf : x.isFunction = true
    · simp [cloneIdx, hf, hrest]
    · rw [Bool.not_eq_true] at hf
      simp [cloneIdx, hf, cleanF, cloneValue_not_fun hf,
        h x (List.mem_cons_self _ _), hrest]

theorem cleanL_cloneItems_of (xs : List JSVal) :
    (∀ x ∈ xs, cleanV (plainDeepClone x) = true) →
    cleanL (cloneItems xs) = true := by
  induction xs with
  | nil => intro _; simp [cloneItems, cleanL]
  | cons x rest ih =>
    intro h
    have hrest := ih (fun z hz => h z (List.mem_cons_of_mem _ hz))
    by_cases hc : (x.truthy && x.typeofObject) = true
    · simp [cloneItems, hc, cleanL, h x (List.mem_cons_self _ _), hrest]
    · have hx : cleanV x = true := by
        cases x <;> simp_all [JSVal.truthy, JSVal.typeofObject, cleanV]
      simp [cloneItems, hc, cleanL, hx, hrest]

theorem cleanV_clone : ∀ v : JSVal,
    cleanV (cloneValue v) = true ∧ cleanV (plainDeepClone v) = true := by
  have main : ∀ n, ∀ v : JSVal, sizeV v ≤ n →
      cleanV (cloneValue v) = true ∧ cleanV (plainDeepClone v) = true := by
    intro n
    induction n with
    | zero =>
      intro v h
      exact absurd h (by have := sizeV_pos v; omega)
    | succ n ih =>
      intro v hs
      have hobj : ∀ fs : List (String × JSEntry), v = .vobj fs →
          cleanF (cloneFields fs) = true := by
        intro fs hv
        subst hv
        refine cleanF_cloneFields_of fs (fun p hp w hw => ?_)
        have h1 := sizeE_lt_of_mem hp
        rw [hw] at h1
        simp only [sizeE] at h1
        simp only [sizeV] at hs
        exact (ih w (by omega)).1
      have harr : ∀ xs : List JSVal, v = .varr xs →
          (∀ x ∈ xs, cleanV (cloneValue x) = true ∧ cleanV (plainDeepClone x) = true) := by
        intro xs hv x hx
        subst hv
        have h1 := sizeV_lt_of_mem hx
        simp only [sizeV] at hs
        exact ih x (by omega)
      constructor
      · cases v with
        | varr xs =>
          simp only [cloneValue, cleanV]
          exact cleanL_cloneItems_of xs (fun x hx => (harr xs rfl x hx).2)
        | vobj fs =>
          simp only [cloneValue, cleanV]
          exact hobj fs rfl
        | _ => simp [cloneValue, cleanV]
      · by_cases ht : v.truthy = true
        · cases v with
          | vobj fs =>
            rw [← cloneValue_obj]
            simp only [cloneValue, cleanV]
            exact hobj fs rfl
          | varr xs =>
            have : plainDeepClone (.varr xs) = .vobj (cloneIdx 0 xs) := by
              simp [plainDeepClone, JSVal.truthy]
            rw [this]
            simp only [cleanV]
            exact cleanF_cloneIdx_of xs (fun x hx => (harr xs rfl x hx).1) 0
          | vstr str =>
            have hne : ¬ str = "" := by simpa [JSVal.truthy] using ht
            have : plainDeepClone (.vstr str) = .vobj (strIdxFields 0 str.data) := by
              simp [plainDeepClone, JSVal.truthy, hne]
            rw [this]
            simp only [cleanV]
            exact cleanF_strIdxFields str.data 0
          | undef => simp [JSVal.truthy] at ht
          | vnull => simp [JSVal.truthy] at ht
          | vbool b => simp [plainDeepClone, ht, cleanV, cleanF]
          | vnum m => simp [plainDeepClone, ht, cleanV, cleanF]
          | vfun => simp [plainDeepClone, ht, cleanV, cleanF]
        · rw [Bool.not_eq_true] at ht
          cases v <;> simp_all [plainDeepClone, JSVal.truthy, cleanV]
  exact fun v => main (sizeV v) v le_rfl

/-!
## Which keys the clone keeps
-/

theorem hasKey_cloneFields_imp {fs : List (String × JSEntry)} {k : String}
    (h : hasKey (cloneFields fs) k = true) : hasKey fs k = true := by
  induction fs with
  | nil => simp [cloneFields, hasKey] at h
  | cons q rest ih =>
    obtain ⟨k₁, e⟩ := q
    cases e with
    | data v =>
      by_cases hf : v.isFunction = true
      · simp only [cloneFields, hf, if_true] at h
        simp [hasKey, ih h]
      · rw [Bool.not_eq_true] at hf
        simp only [cloneFields, hf, Bool.false_eq_true, if_false, hasKey,
          Bool.or_eq_true] at h ⊢
        rcases h with h | h
        · exact Or.inl h
        · exact Or.inr (ih h)
    | accessor g sf gv =>
      by_cases hgs : (g || sf) = true
      · simp only [cloneFields, hgs, if_true] at h
        simp [hasKey, ih h]
      · simp only [cloneFields, hgs, Bool.false_eq_true, if_false, hasKey,
          Bool.or_eq_true] at h ⊢
        rcases h with h | h
        · exact Or.inl h
        · exact Or.inr (ih h)

/-- `isPlainField(target, key)` computed from the own property at `key`. -/
theorem isPlainField_entry {fs : List (String × JSEntry)} {k : String} {e : JSEntry}
    (hl : lookupEntry fs k = some e) :
    isPlainField (.vobj fs) k = isPlainFieldEntry e := by
  cases e with
  | data v =>
    simp [isPlainField, ownDescriptor, hl, getProp, isPlainFieldEntry, JSEntry.entryValue]
  | accessor g sf gv =>
    cases g <;> cases sf <;>
      simp [isPlainField, ownDescriptor, hl, getProp, isPlainFieldEntry,
        JSEntry.entryValue, JSVal.isFunction]

theorem isPlainField_cons_ne {fs : List (String × JSEntry)} {k₁ k : String} {e : JSEntry}
    (hk : k₁ ≠ k) :
    isPlainField (.vobj ((k₁, e) :: fs)) k = isPlainField (.vobj fs) k := by
  simp [isPlainField, ownDescriptor, getProp, lookupEntry, hk]

/-- The recursive filter keeps exactly the plain-field keys. -/
theorem cloneFields_keep_iff :
    ∀ (fs : List (String × JSEntry)) (k : String), nodupKeysB fs = true →
    hasKey (cloneFields fs) k = (hasKey fs k && isPlainField (.vobj fs) k) := by
  intro fs
  induction fs with
  | nil => intro k _; simp [cloneFields, hasKey]
  | cons q rest ih =>
    intro k hnd
    obtain ⟨k₁, e⟩ := q
    simp only [nodupKeysB, Bool.and_eq_true, Bool.not_eq_true'] at hnd
    by_cases hk : k₁ = k
    · subst hk
      have hlook : lookupEntry ((k₁, e) :: rest) k₁ = some e := by
        simp [lookupEntry]
      have hpf := isPlainField_entry hlook
      have habs : hasKey (cloneFields rest) k₁ = false := by
        cases hcr : hasKey (cloneFields rest) k₁ with
        | false => rfl
        | true => rw [hasKey_cloneFields_imp hcr] at hnd; cases hnd.1
      cases e with
      | data v =>
        by_cases hf : v.isFunction = true
        · simp [cloneFields, hf, habs, hasKey, hpf, isPlainFieldEntry,
            JSEntry.entryValue]
        · rw [Bool.not_eq_true] at hf
          simp [cloneFields, hf, hasKey, hpf, isPlainFieldEntry, JSEntry.entryValue]
      | accessor g sf gv =>
        by_cases hgs : (g || sf) = true
        · have hple : isPlainFieldEntry (JSEntry.accessor g sf gv) = false := by
            simp [isPlainFieldEntry, hgs, JSEntry.entryValue]
          simp [cloneFields, hgs, habs, hasKey, hpf, hple]
        · have hg : g = false := by revert hgs; cases g <;> simp
          have hsf : sf = false := by revert hgs; cases g <;> cases sf <;> simp
          subst hg
          subst hsf
          have hple : isPlainFieldEntry (JSEntry.accessor false false gv) = true := by
            simp [isPlainFieldEntry, JSEntry.entryValue, JSVal.isFunction]
          simp [cloneFields, hasKey, hpf, hple]
    · have hpf := @isPlainField_cons_ne rest k₁ k e hk
      have hne : (k₁ == k) = false := by simp [hk]
      cases e with
      | data v =>
        by_cases hf : v.isFunction = true
        · simp [cloneFields, hf, hasKey, hne, hpf, ih k hnd.2]
        · rw [Bool.not_eq_true] at hf
          simp [cloneFields, hf, hasKey, hne, hpf, ih k hnd.2]
      | accessor g sf gv =>
        by_cases hgs : (g || sf) = true
        · simp [cloneFields, hgs, hasKey, hne, hpf, ih k hnd.2]
        · simp [cloneFields, hgs, hasKey, hne, hpf, ih k hnd.2]

/-!
## A fuel-indexed evaluator for `deepMerge`

`deepMerge` recurses on the source graph with no cycle detection and no
depth bound.  The fueled evaluator makes the consumption explicit:
`none` means the recursion budget ran out.  Termination on every finite,
acyclic source is the statement that a budget the size of the source
graph always suffices (`deepMergeF_eq_deepMerge`); an inductive value
cannot hold a reference cycle, so the diverging case of the original
code has no counterpart in the model.
-/

mutual

def deepMergeF : Nat → JSVal → JSVal → Option (Except Unit JSVal)
  | 0, _, _ => none
  | fuel + 1, target, source =>
    match source with
    | .vobj fs => mergeFieldsF fuel target fs
    | .varr xs => mergeElemsF fuel target 0 xs
    | .vstr str => some (assignChars target 0 str.data)
    | _ => some (.ok target)

def mergeFieldsF : Nat → JSVal → List (String × JSEntry) → Option (Except Unit JSVal)
  | 0, _, _ => none
  | _ + 1, target, [] => some (.ok target)
  | fuel + 1, target, (k, .data v) :: rest =>
    if v.isArrayV || !v.typeofObject then
      match setProp target k v with
      | .error _ => some (.error ())
      | .ok t' => mergeFieldsF fuel t' rest
    else
      match readProp target k with
      | .error _ => some (.error ())
      | .ok cur =>
        if !cur.truthy then
          match setProp target k v with
          | .error _ => some (.error ())
          | .ok t' => mergeFieldsF fuel t' rest
        else
          match deepMergeF fuel cur v with
          | none => none
          | some (.error _) => some (.error ())
          | some (.ok merged) => mergeFieldsF fuel (writeBack target k merged) rest
  | fuel + 1, target, (k, .accessor g sf gv) :: rest =>
    if g then
      if gv.isArrayV || !gv.typeofObject then
        match setProp target k gv with
        | .error _ => some (.error ())
        | .ok t' => mergeFieldsF fuel t' rest
      else
        match readProp target k with
        | .error _ => some (.error ())
        | .ok cur =>
          if !cur.truthy then
            match setProp target k gv with
            | .error _ => some (.error ())
            | .ok t' => mergeFieldsF fuel t' rest
          else
            match deepMergeF fuel cur gv with
            | none => none
            | some (.error _) => some (.error ())
            | some (.ok merged) => mergeFieldsF fuel (writeBack target k merged) rest
    else
      match setProp target k .undef with
      | .error _ => some (.error ())
      | .ok t' => mergeFieldsF fuel t' rest

def mergeElemsF : Nat → JSVal → Nat → List JSVal → Option (Except Unit JSVal)
  | 0, _, _, _ => none
  | _ + 1, target, _, [] => some (.ok target)
  | fuel + 1, target, i, value :: rest =>
    if value.isArrayV || !value.typeofObject then
      match setProp target (toString i) value with
      | .error _ => some (.error ())
      | .ok t' => mergeElemsF fuel t' (i + 1) rest
    else
      match readProp target (toString i) with
      | .error _ => some (.error ())
      | .ok cur =>
        if !cur.truthy then
          match setProp target (toString i) value with
          | .error _ => some (.error ())
          | .ok t' => mergeElemsF fuel t' (i + 1) rest
        else
          match deepMergeF fuel cur value with
          | none => none
          | some (.error _) => some (.error ())
          | some (.ok merged) => mergeElemsF fuel (writeBack target (toString i) merged) (i + 1) rest

end

theorem deepMergeF_adequate : ∀ fuel : Nat,
    (∀ t s, sizeV s < fuel → deepMergeF fuel t s = some (deepMerge t s)) ∧
    (∀ t fs, sizeF fs < fuel → mergeFieldsF fuel t fs = some (mergeFields t fs)) ∧
    (∀ t i xs, sizeL xs < fuel → mergeElemsF fuel t i xs = some (mergeElems t i xs)) := by
  intro fuel
  induction fuel with
  | zero =>
    exact ⟨fun t s h => absurd h (by omega),
      fun t fs h => absurd h (by omega),
      fun t i xs h => absurd h (by omega)⟩
  | succ fuel ih =>
    obtain ⟨ihV, ihF, ihE⟩ := ih
    refine ⟨?_, ?_, ?_⟩
    · intro t s h
      cases s with
      | vobj fs =>
        simp only [sizeV] at h
        simp only [deepMergeF, deepMerge]
        exact ihF t fs (by omega)
      | varr xs =>
        simp only [sizeV] at h
        simp only [deepMergeF, deepMerge]
        exact ihE t 0 xs (by omega)
      | vstr str => simp [deepMergeF, deepMerge]
      | undef => simp [deepMergeF, deepMerge]
      | vnull => simp [deepMergeF, deepMerge]
      | vbool b => simp [deepMergeF, deepMerge]
      | vnum m => simp [deepMergeF, deepMerge]
      | vfun => simp [deepMergeF, deepMerge]
    · intro t fs h
      cases fs with
      | nil => simp [mergeFieldsF, mergeFields]
      | cons q rest =>
        obtain ⟨k, e⟩ := q
        cases e with
        | data v =>
          simp only [sizeF, sizeE] at h
          simp only [mergeFieldsF, mergeFields]
          by_cases hc : (v.isArrayV || !v.typeofObject) = true
          · rw [if_pos hc, if_pos hc]
            cases hsp : setProp t k v with
            | error u => rfl
            | ok t' => exact ihF t' rest (by omega)
          · rw [if_neg hc, if_neg hc]
            cases hrp : readProp t k with
            | error u => rfl
            | ok cur =>
              dsimp only
              by_cases htr : cur.truthy = true
              · rw [htr]
                simp only [Bool.not_true, Bool.false_eq_true, if_false]
                rw [ihV cur v (by omega)]
                cases hd : deepMerge cur v with
                | error u => rfl
                | ok merged => exact ihF (writeBack t k merged) rest (by omega)
              · rw [Bool.not_eq_true] at htr
                rw [htr]
                simp only [Bool.not_false, if_true]
                cases hsp : setProp t k v with
                | error u => rfl
                | ok t' => exact ihF t' rest (by omega)
        | accessor g sf gv =>
          simp only [sizeF, sizeE] at h
          simp only [mergeFieldsF, mergeFields]
          cases g with
          | false =>
            simp only [Bool.false_eq_true, if_false]
            cases hsp : setProp t k .undef with
            | error u => rfl
            | ok t' => exact ihF t' rest (by omega)
          | true =>
            simp only [if_true]
            by_cases hc : (gv.isArrayV || !gv.typeofObject) = true
            · rw [if_pos hc, if_pos hc]
              cases hsp : setProp t k gv with
              | error u => rfl
              | ok t' => exact ihF t' rest (by omega)
            · rw [if_neg hc, if_neg hc]
              cases hrp : readProp t k with
              | error u => rfl
              | ok cur =>
                dsimp only
                by_cases htr : cur.truthy = true
                · rw [htr]
                  simp only [Bool.not_true, Bool.false_eq_true, if_false]
                  rw [ihV cur gv (by omega)]
                  cases hd : deepMerge cur gv with
                  | error u => rfl
                  | ok merged => exact ihF (writeBack t k merged) rest (by omega)
                · rw [Bool.not_eq_true] at htr
                  rw [htr]
                  simp only [Bool.not_false, if_true]
                  cases hsp : setProp t k gv with
                  | error u => rfl
                  | ok t' => exact ihF t' rest (by omega)
    · intro t i xs h
      cases xs with
      | nil => simp [mergeElemsF, mergeElems]
      | cons value rest =>
        simp only [sizeL] at h
        simp only [mergeElemsF, mergeElems]
        by_cases hc : (value.isArrayV || !value.typeofObject) = true
        · rw [if_pos hc, if_pos hc]
          cases hsp : setProp t (toString i) value with
          | error u => rfl
          | ok t' => exact ihE t' (i + 1) rest (by omega)
        · rw [if_neg hc, if_neg hc]
          cases hrp : readProp t (toString i) with
          | error u => rfl
          | ok cur =>
            dsimp only
            by_cases htr : cur.truthy = true
            · rw [htr]
              simp only [Bool.not_true, Bool.false_eq_true, if_false]
              rw [ihV cur value (by omega)]
              cases hd : deepMerge cur value with
              | error u => rfl
              | ok merged => exact ihE (writeBack t (toString i) merged) (i + 1) rest (by omega)
            · rw [Bool.not_eq_true] at htr
              rw [htr]
              simp only [Bool.not_false, if_true]
              cases hsp : setProp t (toString i) value with
              | error u => rfl
              | ok t' => exact ihE t' (i + 1) rest (by omega)

/-!
## The claims
-/

/-- A store adapter with no entries (`get` always `null`), used by the
concrete scenarios. -/
def demoNullDb : DBModel := ⟨fun _ => .vnull⟩

/-- The store of the restore scenario: the effective key for `"k"` holds
the decoded snapshot `{count: 10, extra: "x"}`. -/
def demoStoreDb : DBModel :=
  ⟨fun s => if s = "valtio/v1.0/k"
    then .vobj [("count", .data (.vnum 10)), ("extra", .data (.vstr "x"))]
    else .vnull⟩

/-- **C1**, counterexample.  The claim quantifies over every finite,
acyclic, plain-data object graph, but for `t = {a: [[1]]}` — plain data:
no accessor member, no callable member — `plainDeepClone` rebuilds the
inner array as the index-keyed object `{"0": 1}` (the clone's array
branch sends every object-typed element through `plainDeepClone`, whose
own body has no array case), so `deepMerge(t, plainDeepClone(t))`
replaces `t.a` by `[{"0": 1}]` and `t` is changed. -/
theorem c1_plain_roundtrip_counterexample :
    wfPlain (.vobj [("a", .data (.varr [.varr [.vnum 1]]))]) = true ∧
    deepMerge (.vobj [("a", .data (.varr [.varr [.vnum 1]]))])
        (plainDeepClone (.vobj [("a", .data (.varr [.varr [.vnum 1]]))])) ≠
      .ok (.vobj [("a", .data (.varr [.varr [.vnum 1]]))]) := by
  exact ⟨by decide, by decide⟩

/-- **C1** (amended).  For every finite, acyclic, plain-data object graph
`t` (no accessor members, no callable members) in which no array element
is itself directly an array, `deepMerge(t, plainDeepClone(t))` leaves `t`
unchanged: every member of `t`, at every nesting depth, has the same
value after the call as before. -/
theorem c1_plain_roundtrip_noop (fs : List (String × JSEntry))
    (hwf : wfPlain (.vobj fs) = true) (hAA : noAA (.vobj fs) = true) :
    deepMerge (.vobj fs) (plainDeepClone (.vobj fs)) = .ok (.vobj fs) := by
  rw [plainDeepClone_id_obj fs hwf hAA]
  simp only [wfPlain, Bool.and_eq_true] at hwf
  simp only [deepMerge]
  exact mergeFields_self fs fs (fun p hp => lookupEntry_self_of_nodup hwf.1 hp) hwf.2

theorem c1_plain_roundtrip_noop_witness :
    wfPlain (.vobj [("count", .data (.vnum 1)),
      ("user", .data (.vobj [("name", .data (.vstr "a")),
        ("tags", .data (.varr [.vstr "x", .vobj [("p", .data (.vbool true))]]))])),
      ("n", .data .vnull), ("u", .data .undef), ("z", .data (.vnum 0))]) = true ∧
    noAA (.vobj [("count", .data (.vnum 1)),
      ("user", .data (.vobj [("name", .data (.vstr "a")),
        ("tags", .data (.varr [.vstr "x", .vobj [("p", .data (.vbool true))]]))])),
      ("n", .data .vnull), ("u", .data .undef), ("z", .data (.vnum 0))]) = true ∧
    deepMerge (.vobj [("count", .data (.vnum 1)),
      ("user", .data (.vobj [("name", .data (.vstr "a")),
        ("tags", .data (.varr [.vstr "x", .vobj [("p", .data (.vbool true))]]))])),
      ("n", .data .vnull), ("u", .data .undef), ("z", .data (.vnum 0))])
      (plainDeepClone (.vobj [("count", .data (.vnum 1)),
        ("user", .data (.vobj [("name", .data (.vstr "a")),
          ("tags", .data (.varr [.vstr "x", .vobj [("p", .data (.vbool true))]]))])),
        ("n", .data .vnull), ("u", .data .undef), ("z", .data (.vnum 0))])) =
      .ok (.vobj [("count", .data (.vnum 1)),
        ("user", .data (.vobj [("name", .data (.vstr "a")),
          ("tags", .data (.varr [.vstr "x", .vobj [("p", .data (.vbool true))]]))])),
        ("n", .data .vnull), ("u", .data .undef), ("z", .data (.vnum 0))]) :=
  ⟨by decide, by decide, c1_plain_roundtrip_noop _ (by decide) (by decide)⟩

/-- **C3**, counterexample.  The claim says the result of
`plainDeepClone` contains, at every nesting depth, no member whose value
is callable; but a callable that is a direct element of an array is
copied verbatim (`item && typeof item === 'object'` is false for a
function, so the element is not filtered), so the clone of
`{a: [function]}` still contains a callable. -/
theorem c3_snapshot_filter_counterexample :
    containsFun (plainDeepClone (.vobj [("a", .data (.varr [.vfun]))])) = true := by
  decide

/-- **C3** (amended).  For every input `g`, `plainDeepClone g` contains —
at every nesting depth — no accessor-backed member and no object member
whose value is callable (a callable that is a direct array element is
the one exception: it is copied verbatim); and a member of the input
object is carried into the result exactly when `isPlainField` holds of
it: it does not resolve to a callable value, and its own property
descriptor has neither getter nor setter, and its value descriptor is
not a function. -/
theorem c3_snapshot_filter_clean :
    (∀ g : JSVal, cleanV (plainDeepClone g) = true) ∧
    (∀ (fs : List (String × JSEntry)) (k : String), nodupKeysB fs = true →
      ∃ fs', plainDeepClone (.vobj fs) = .vobj fs' ∧
        hasKey fs' k = (hasKey fs k && isPlainField (.vobj fs) k)) :=
  ⟨fun g => (cleanV_clone g).2,
    fun fs k hnd => ⟨cloneFields fs, rfl, cloneFields_keep_iff fs k hnd⟩⟩

theorem c3_snapshot_filter_clean_witness :
    cleanV (plainDeepClone (.vobj [("a", .data (.vnum 1)), ("m", .data .vfun),
      ("g", .accessor true false (.vstr "gv"))])) = true ∧
    nodupKeysB [("a", .data (.vnum 1)), ("m", .data .vfun),
      ("g", .accessor true false (.vstr "gv"))] = true ∧
    (∃ fs', plainDeepClone (.vobj [("a", .data (.vnum 1)), ("m", .data .vfun),
        ("g", .accessor true false (.vstr "gv"))]) = .vobj fs' ∧
      hasKey fs' "m" = (hasKey [("a", .data (.vnum 1)), ("m", .data .vfun),
        ("g", .accessor true false (.vstr "gv"))] "m" &&
        isPlainField (.vobj [("a", .data (.vnum 1)), ("m", .data .vfun),
          ("g", .accessor true false (.vstr "gv"))]) "m")) :=
  ⟨c3_snapshot_filter_clean.1 _, by decide,
    c3_snapshot_filter_clean.2 _ "m" (by decide)⟩

/-- **C4**.  Whenever a source member's value is an array, `deepMerge`
assigns that array wholesale onto the corresponding target member, fully
replacing the prior value — arrays are never merged element-wise.
(The target member must be a data property or absent, which is what
"replacing the prior value" presumes; an accessor member would route the
assignment through its setter.) -/
theorem c4_array_wholesale_replace (tfs fs : List (String × JSEntry)) (t' : JSVal)
    (k : String) (e : JSEntry) (arr : List JSVal)
    (hnd : nodupKeysB fs = true)
    (hl : lookupEntry fs k = some e)
    (hv : JSEntry.entryValue e = .varr arr)
    (hda : dataOrAbsentB tfs k = true)
    (hm : deepMerge (.vobj tfs) (.vobj fs) = .ok t') :
    getProp t' k = .varr arr := by
  simp only [deepMerge] at hm
  exact mergeFields_array fs tfs t' k e arr hnd hl hv hda hm

theorem c4_array_wholesale_replace_witness :
    deepMerge (.vobj [("arr", .data (.varr [.vnum 1, .vnum 2, .vnum 3]))])
        (.vobj [("arr", .data (.varr [.vnum 4, .vnum 5]))]) =
      .ok (.vobj [("arr", .data (.varr [.vnum 4, .vnum 5]))]) ∧
    getProp (.vobj [("arr", .data (.varr [.vnum 4, .vnum 5]))]) "arr" =
      .varr [.vnum 4, .vnum 5] :=
  ⟨by decide,
    c4_array_wholesale_replace [("arr", .data (.varr [.vnum 1, .vnum 2, .vnum 3]))]
      [("arr", .data (.varr [.vnum 4, .vnum 5]))]
      (.vobj [("arr", .data (.varr [.vnum 4, .vnum 5]))]) "arr"
      (.data (.varr [.vnum 4, .vnum 5])) [.vnum 4, .vnum 5]
      (by decide) (by decide) (by decide) (by decide) (by decide)⟩

/-- **C5**.  In `deepMerge(target, source)`: (a) when the target member is
falsy (absent, `null`, `undefined`, `false`, `0`, empty string) the source
value is assigned directly — so `merge({config:0}, {config:{theme:'dark'}})`
yields `{config:{theme:'dark'}}`; and (b) when the source member is `null`
and the target member is truthy, the recursive merge is a no-op and the
target member's prior value survives — so `merge({config:{a:1}},
{config:null})` yields `{config:{a:1}}` unchanged.  (In (a), the target
member must be a data property or absent for the assignment to replace
its value.) -/
theorem c5_falsy_target_and_null_source :
    (∀ (tfs fs : List (String × JSEntry)) (t' : JSVal) (k : String) (e : JSEntry),
      nodupKeysB fs = true →
      lookupEntry fs k = some e →
      (getProp (.vobj tfs) k).truthy = false →
      dataOrAbsentB tfs k = true →
      deepMerge (.vobj tfs) (.vobj fs) = .ok t' →
      getProp t' k = JSEntry.entryValue e) ∧
    (∀ (tfs fs : List (String × JSEntry)) (t' : JSVal) (k : String) (e : JSEntry),
      nodupKeysB fs = true →
      lookupEntry fs k = some e →
      JSEntry.entryValue e = .vnull →
      (getProp (.vobj tfs) k).truthy = true →
      deepMerge (.vobj tfs) (.vobj fs) = .ok t' →
      getProp t' k = getProp (.vobj tfs) k) := by
  constructor
  · intro tfs fs t' k e hnd hl hfal hda hm
    simp only [deepMerge] at hm
    exact mergeFields_falsy fs tfs t' k e hnd hl hfal hda hm
  · intro tfs fs t' k e hnd hl hv htr hm
    simp only [deepMerge] at hm
    exact mergeFields_null fs tfs t' k e hnd hl hv htr hm

theorem c5_falsy_target_and_null_source_witness :
    (deepMerge (.vobj [("config", .data (.vnum 0))])
        (.vobj [("config", .data (.vobj [("theme", .data (.vstr "dark"))]))]) =
      .ok (.vobj [("config", .data (.vobj [("theme", .data (.vstr "dark"))]))]) ∧
      getProp (.vobj [("config", .data (.vobj [("theme", .data (.vstr "dark"))]))])
        "config" = .vobj [("theme", .data (.vstr "dark"))]) ∧
    (deepMerge (.vobj [("config", .data (.vobj [("a", .data (.vnum 1))]))])
        (.vobj [("config", .data .vnull)]) =
      .ok (.vobj [("config", .data (.vobj [("a", .data (.vnum 1))]))]) ∧
      getProp (.vobj [("config", .data (.vobj [("a", .data (.vnum 1))]))]) "config" =
        getProp (.vobj [("config", .data (.vobj [("a", .data (.vnum 1))]))]) "config") :=
  ⟨⟨by decide,
    c5_falsy_target_and_null_source.1 [("config", .data (.vnum 0))]
      [("config", .data (.vobj [("theme", .data (.vstr "dark"))]))]
      (.vobj [("config", .data (.vobj [("theme", .data (.vstr "dark"))]))]) "config"
      (.data (.vobj [("theme", .data (.vstr "dark"))]))
      (by decide) (by decide) (by decide) (by decide) (by decide)⟩,
   ⟨by decide,
    c5_falsy_target_and_null_source.2 [("config", .data (.vobj [("a", .data (.vnum 1))]))]
      [("config", .data .vnull)]
      (.vobj [("config", .data (.vobj [("a", .data (.vnum 1))]))]) "config"
      (.data .vnull)
      (by decide) (by decide) (by decide) (by decide) (by decide)⟩⟩

/-- **C6**.  For every orchestration created with `skipCache: true`, the
store adapter's `get` and `set` are never invoked: the call performs no
read, registers no change listener (so no subsequent mutation can cause
a write), and returns the wrapped initial object unchanged. -/
theorem c6_skip_cache_no_store_interaction (opts : CacheOptions)
    (initialObject : JSVal) (envDb : DBModel)
    (hskip : opts.skipCache = some true) :
    cacheModel (.inr opts) initialObject envDb =
      .ok ⟨initialObject, [], none⟩ ∧
    (∀ r cur, cacheModel (.inr opts) initialObject envDb = .ok r →
      notifyWrites r cur = []) := by
  have h1 : cacheModel (.inr opts) initialObject envDb =
      .ok ⟨initialObject, [], none⟩ := by
    simp [cacheModel, hskip]
  refine ⟨h1, fun r cur hr => ?_⟩
  rw [h1] at hr
  injection hr with hr
  rw [← hr]
  rfl

theorem c6_skip_cache_no_store_interaction_witness :
    cacheModel (.inr { key := "k", skipCache := some true })
        (.vobj [("count", .data (.vnum 0))]) demoNullDb =
      .ok ⟨.vobj [("count", .data (.vnum 0))], [], none⟩ ∧
    notifyWrites ⟨.vobj [("count", .data (.vnum 0))], [], none⟩
      (.vobj [("count", .data (.vnum 5))]) = [] :=
  ⟨(c6_skip_cache_no_store_interaction _ _ _ rfl).1,
    (c6_skip_cache_no_store_interaction
        { key := "k", skipCache := some true } (.vobj [("count", .data (.vnum 0))])
        demoNullDb rfl).2 _ (.vobj [("count", .data (.vnum 5))])
      (c6_skip_cache_no_store_interaction _ _ _ rfl).1⟩

/-- **C7**.  If the store holds the decoded snapshot `{count:10, extra:"x"}`
under the effective namespace key for `"k"`, then `cache("k",
{count:0, name:"n"})` returns live state with `count = 10`, `name = "n"`
and `extra = "x"`; and when the store has no entry (`get` returns
`null`), an empty object is merged instead, leaving every member of the
initial object unchanged. -/
theorem c7_restore_scenario :
    cacheModel (.inl "k")
        (.vobj [("count", .data (.vnum 0)), ("name", .data (.vstr "n"))]) demoStoreDb =
      .ok ⟨.vobj [("count", .data (.vnum 10)), ("name", .data (.vstr "n")),
        ("extra", .data (.vstr "x"))], ["valtio/v1.0/k"], some "valtio/v1.0/k"⟩ ∧
    (∀ (k : String) (initialObject : JSVal) (envDb : DBModel),
      envDb.get ( DEFAULT_PREFIX ++ k) = .vnull →
      cacheModel (.inl k) initialObject envDb =
        .ok ⟨initialObject, [ DEFAULT_PREFIX ++ k], some ( DEFAULT_PREFIX ++ k)⟩) := by
  constructor
  · decide
  · intro k initialObject envDb hnull
    simp [cacheModel, hnull, JSVal.truthy, deepMerge, mergeFields]

theorem c7_restore_scenario_witness :
    demoNullDb.get ( DEFAULT_PREFIX ++ "w") = .vnull ∧
    cacheModel (.inl "w") (.vobj [("a", .data (.vnum 7))]) demoNullDb =
      .ok ⟨.vobj [("a", .data (.vnum 7))], [ DEFAULT_PREFIX ++ "w"],
        some ( DEFAULT_PREFIX ++ "w")⟩ :=
  ⟨rfl, c7_restore_scenario.2 "w" _ _ rfl⟩

/-- **C8**.  For every finite, acyclic source graph, `deepMerge`
terminates: a recursion budget larger than the size of the source always
suffices, and the fueled evaluator agrees with the total function.  The
code has no cycle detection or truncation; a reference cycle in the
source — which an inductive value cannot express — is exactly the input
for which no finite budget would do. -/
theorem c8_merge_terminates (t s : JSVal) (fuel : Nat) (h : sizeV s < fuel) :
    deepMergeF fuel t s = some (deepMerge t s) :=
  (deepMergeF_adequate fuel).1 t s h

theorem c8_merge_terminates_witness :
    sizeV (.vobj [("a", .data (.vobj [("b", .data (.varr [.vnum 1]))]))]) < 10 ∧
    deepMergeF 10 (.vobj [("a", .data (.vobj [("b", .data (.vnum 0))]))])
        (.vobj [("a", .data (.vobj [("b", .data (.varr [.vnum 1]))]))]) =
      some (deepMerge (.vobj [("a", .data (.vobj [("b", .data (.vnum 0))]))])
        (.vobj [("a", .data (.vobj [("b", .data (.varr [.vnum 1]))]))])) :=
  ⟨by decide, c8_merge_terminates _ _ 10 (by decide)⟩

/-- **C9**.  `cache(k, o)` is observably equivalent to `cache({key: k}, o)`:
the string form is pure shorthand in which every option takes its default
(default versioned prefix, `skipCache` false, environment-resolved store,
default valtio primitives), and both forms produce the same live state
and the same store reads and registered writes. -/
theorem c9_string_key_shorthand (k : String) (initialObject : JSVal) (envDb : DBModel) :
    cacheModel (.inl k) initialObject envDb =
      cacheModel (.inr { key := k }) initialObject envDb := rfl

/-- **C10**.  In `cache()`, any falsy value returned by the store's `get`
for the effective key — not only `null`, but also `0`, `false`, or the
empty string — is replaced by an empty object before merging, so the
merge leaves every member of the initial object unchanged. -/
theorem c10_falsy_store_value (opts : CacheOptions) (initialObject : JSVal)
    (envDb : DBModel)
    (hskip : opts.skipCache.getD false = false)
    (hfalsy : ((opts.db.getD envDb).get
      ((opts.prefix_.getD DEFAULT_PREFIX) ++ opts.key)).truthy = false) :
    cacheModel (.inr opts) initialObject envDb =
      .ok ⟨initialObject, [(opts.prefix_.getD DEFAULT_PREFIX) ++ opts.key],
        some ((opts.prefix_.getD DEFAULT_PREFIX) ++ opts.key)⟩ := by
  simp [cacheModel, hskip, hfalsy, deepMerge, mergeFields]

theorem c10_falsy_store_value_witness :
    (({ key := "w", db := some ⟨fun _ => .vnum 0⟩ } : CacheOptions).skipCache.getD false
      = false) ∧
    ((((({ key := "w", db := some ⟨fun _ => .vnum 0⟩ } : CacheOptions)).db.getD
        demoNullDb).get
      (((({ key := "w", db := some ⟨fun _ => .vnum 0⟩ } : CacheOptions)).prefix_.getD
        DEFAULT_PREFIX) ++ "w")).truthy = false) ∧
    cacheModel (.inr { key := "w", db := some ⟨fun _ => .vnum 0⟩ })
        (.vobj [("a", .data (.vnum 7))]) demoNullDb =
      .ok ⟨.vobj [("a", .data (.vnum 7))], [ DEFAULT_PREFIX ++ "w"],
        some ( DEFAULT_PREFIX ++ "w")⟩ :=
  ⟨rfl, rfl, c10_falsy_store_value _ _ _ rfl rfl⟩

/-!
## `LocalStorageDB` (src/sync-db.ts) and its JSON wire format

```ts
get<T = string>(key: string): T | null {
  const value = this.storage.getItem(key);
  if (!value) return value as null;
  return JSON.parse(value) as T;
}
set<T = string>(key: string, value: T): void {
  const serialized: string =
    typeof value !== 'string' ? JSON.stringify(value) : value;
  this.storage.setItem(key, serialized);
}
```

`JSON.stringify`/`JSON.parse` are host builtins; they are modelled here
by an executable printer and recursive-descent parser over the JSON
grammar restricted to the value model: numbers are integers (JSON
numbers are IEEE floats, not shallowly embeddable), string escaping
covers the quotation mark and the backslash (control characters are
carried verbatim), and no whitespace is accepted between tokens (the
printer emits none).  `undefined` and callable values are dropped from
objects and become `null` in arrays, as `JSON.stringify` does; the
`jsonData` predicate delimits the values on which the codec is exercised.
-/

/-- The opening curly bracket character. -/
def lbrace : Char := Char.ofNat 123

/-- The closing curly bracket character. -/
def rbrace : Char := Char.ofNat 125

def digitChar : Nat → Char
  | 0 => '0'
  | 1 => '1'
  | 2 => '2'
  | 3 => '3'
  | 4 => '4'
  | 5 => '5'
  | 6 => '6'
  | 7 => '7'
  | 8 => '8'
  | _ => '9'

/-- Little-endian base-10 digits, by fuel (`fuel ≥ n` suffices); agrees
with `Nat.digits 10` (`natDigitsRev_eq_digits`). -/
def natDigitsRev : Nat → Nat → List Nat
  | 0, _ => []
  | fuel + 1, n => if n = 0 then [] else (n % 10) :: natDigitsRev fuel (n / 10)

theorem natDigitsRev_eq_digits : ∀ fuel n, n ≤ fuel → natDigitsRev fuel n = Nat.digits 10 n := by
  intro fuel
  induction fuel with
  | zero =>
    intro n hn
    interval_cases n
    simp [natDigitsRev]
  | succ fuel ih =>
    intro n hn
    by_cases h0 : n = 0
    · subst h0
      simp [natDigitsRev]
    · rw [natDigitsRev, if_neg h0,
        Nat.digits_def' (by norm_num : 1 < 10) (Nat.pos_of_ne_zero h0),
        ih (n / 10) ?_]
      have := Nat.div_lt_self (Nat.pos_of_ne_zero h0) (by norm_num : 1 < 10)
      omega

/-- Decimal digits of a natural number, most significant first. -/
def natChars (n : Nat) : List Char :=
  if n = 0 then ['0'] else ((natDigitsRev n n).reverse.map digitChar)

/-- Decimal rendering of an integer, as `String(n)` produces it. -/
def intChars (n : Int) : List Char :=
  if n < 0 then '-' :: natChars n.natAbs else natChars n.natAbs

/-- One character of a string literal's body: quotation mark and
backslash are escaped, everything else is carried as itself. -/
def escChar (c : Char) : List Char :=
  if c = '"' || c = '\\' then ['\\', c] else [c]

def escChars : List Char → List Char
  | [] => []
  | c :: cs => escChar c ++ escChars cs

/-- A JSON string literal. -/
def strLit (s : String) : List Char := '"' :: (escChars s.data ++ ['"'])

mutual

/-- `JSON.stringify`, as a character list. -/
def jsonChars : JSVal → List Char
  | .vnull => ['n', 'u', 'l', 'l']
  | .vbool true => ['t', 'r', 'u', 'e']
  | .vbool false => ['f', 'a', 'l', 's', 'e']
  | .vnum n => intChars n
  | .vstr s => strLit s
  | .varr xs => '[' :: (arrItems xs true ++ [']'])
  | .vobj fs => lbrace :: (objItems fs true ++ [rbrace])
  | .undef => ['n', 'u', 'l', 'l']
  | .vfun => ['n', 'u', 'l', 'l']

/-- Array elements, comma-separated; `undefined` and callables become
`null`.  The flag says whether the next element is the first. -/
def arrItems : List JSVal → Bool → List Char
  | [], _ => []
  | x :: xs, first =>
    (if first then [] else [',']) ++
      (match x with
       | .undef => ['n', 'u', 'l', 'l']
       | .vfun => ['n', 'u', 'l', 'l']
       | x => jsonChars x) ++
      arrItems xs false

/-- Object members, comma-separated; members whose read value is
`undefined` or callable are omitted (as are setter-only accessors,
whose read value is `undefined`). -/
def objItems : List (String × JSEntry) → Bool → List Char
  | [], _ => []
  | (k, .data v) :: fs, first =>
    (match v with
     | .undef => objItems fs first
     | .vfun => objItems fs first
     | v =>
       (if first then [] else [',']) ++ strLit k ++ ':' :: jsonChars v ++ objItems fs false)
  | (k, .accessor g _ gv) :: fs, first =>
    if g then
      (match gv with
       | .undef => objItems fs first
       | .vfun => objItems fs first
       | gv =>
         (if first then [] else [',']) ++ strLit k ++ ':' :: jsonChars gv ++ objItems fs false)
    else objItems fs first

end

mutual

/-- A value inside the JSON wire format's domain: no `undefined`, no
callable, no accessor member. -/
def jsonData : JSVal → Bool
  | .undef => false
  | .vfun => false
  | .varr xs => jsonDataL xs
  | .vobj fs => jsonDataF fs
  | _ => true

def jsonDataL : List JSVal → Bool
  | [] => true
  | x :: xs => jsonData x && jsonDataL xs

def jsonDataF : List (String × JSEntry) → Bool
  | [] => true
  | (_, .data v) :: fs => jsonData v && jsonDataF fs
  | (_, .accessor _ _ _) :: _ => false

end

/-- `typeof v === 'string'`. -/
def isStringV : JSVal → Bool
  | .vstr _ => true
  | _ => false

def isDigitCh (c : Char) : Bool := 48 ≤ c.toNat && c.toNat ≤ 57

def digitVal (c : Char) : Nat := c.toNat - 48

/-- Maximal leading run of decimal digits. -/
def takeDigits : List Char → List Char × List Char
  | [] => ([], [])
  | c :: cs =>
    if isDigitCh c then
      ((takeDigits cs).1.cons c, (takeDigits cs).2)
    else ([], c :: cs)

/-- Value of a digit run, most significant digit first. -/
def digitsToNat (ds : List Char) : Nat :=
  Nat.ofDigits 10 ((ds.map digitVal).reverse)

/-- Body of a string literal up to the closing quotation mark, unescaping
the two escapes the printer emits; rejects any other escape. -/
def parseStrBody : List Char → Option (List Char × List Char)
  | [] => none
  | c :: cs =>
    if c = '"' then some ([], cs)
    else if c = '\\' then
      match cs with
      | [] => none
      | e :: cs₂ =>
        if e = '"' || e = '\\' then
          match parseStrBody cs₂ with
          | none => none
          | some (b, r) => some (e :: b, r)
        else none
    else
      match parseStrBody cs with
      | none => none
      | some (b, r) => some (c :: b, r)

/-- One step of the recursive-descent `JSON.parse` for a value, with the
recursive entry points for element and member lists passed in. -/
def parseValAux (pe : List Char → Option (List JSVal × List Char))
    (pm : List Char → Option (List (String × JSEntry) × List Char))
    (cs : List Char) : Option (JSVal × List Char) :=
  match cs with
  | [] => none
  | c :: cs₁ =>
    if isDigitCh c then
      some (.vnum (Int.ofNat (digitsToNat (takeDigits (c :: cs₁)).1)),
        (takeDigits (c :: cs₁)).2)
    else if c = '-' then
      match takeDigits cs₁ with
      | ([], _) => none
      | (ds, r) => some (.vnum (-(Int.ofNat (digitsToNat ds))), r)
    else if c = '"' then
      match parseStrBody cs₁ with
      | none => none
      | some (b, r) => some (.vstr (String.mk b), r)
    else if c = 'n' then
      match cs₁ with
      | 'u' :: 'l' :: 'l' :: r => some (.vnull, r)
      | _ => none
    else if c = 't' then
      match cs₁ with
      | 'r' :: 'u' :: 'e' :: r => some (.vbool true, r)
      | _ => none
    else if c = 'f' then
      match cs₁ with
      | 'a' :: 'l' :: 's' :: 'e' :: r => some (.vbool false, r)
      | _ => none
    else if c = '[' then
      match cs₁ with
      | [] => none
      | c₂ :: r =>
        if c₂ = ']' then some (.varr [], r)
        else
          match pe cs₁ with
          | none => none
          | some (xs, r') => some (.varr xs, r')
    else if c = lbrace then
      match cs₁ with
      | [] => none
      | c₂ :: r =>
        if c₂ = rbrace then some (.vobj [], r)
        else
          match pm cs₁ with
          | none => none
          | some (fs, r') => some (.vobj fs, r')
    else none

/-- One step for one-or-more array elements ending at `]`, with the
recursive entry points passed in. -/
def parseElemsAux (pv : List Char → Option (JSVal × List Char))
    (pe : List Char → Option (List JSVal × List Char))
    (cs : List Char) : Option (List JSVal × List Char) :=
  match pv cs with
  | none => none
  | some (v, r) =>
    match r with
    | ',' :: r₂ =>
      match pe r₂ with
      | none => none
      | some (xs, r₃) => some (v :: xs, r₃)
    | ']' :: r₂ => some ([v], r₂)
    | _ => none

/-- One step for one-or-more object members ending at the closing curly
bracket, with the recursive entry points passed in. -/
def parseMembersAux (pv : List Char → Option (JSVal × List Char))
    (pm : List Char → Option (List (String × JSEntry) × List Char))
    (cs : List Char) : Option (List (String × JSEntry) × List Char) :=
  match cs with
  | [] => none
  | c :: cs₁ =>
    if c = '"' then
      match parseStrBody cs₁ with
      | none => none
      | some (kb, r₁) =>
        match r₁ with
        | ':' :: r₂ =>
          match pv r₂ with
          | none => none
          | some (v, r₃) =>
            match r₃ with
            | [] => none
            | c₄ :: r₄ =>
              if c₄ = ',' then
                match pm r₄ with
                | none => none
                | some (fs, r₅) => some ((String.mk kb, .data v) :: fs, r₅)
              else if c₄ = rbrace then some ([(String.mk kb, .data v)], r₄)
              else none
        | _ => none
    else none

mutual

/-- Recursive-descent `JSON.parse` for the printed grammar, fueled. -/
def parseVal : Nat → List Char → Option (JSVal × List Char)
  | 0, _ => none
  | fuel + 1, cs => parseValAux (parseElemsJ fuel) (parseMembersJ fuel) cs

/-- One or more array elements, ending at `]`. -/
def parseElemsJ : Nat → List Char → Option (List JSVal × List Char)
  | 0, _ => none
  | fuel + 1, cs => parseElemsAux (parseVal fuel) (parseElemsJ fuel) cs

/-- One or more object members, ending at the closing curly bracket. -/
def parseMembersJ : Nat → List Char → Option (List (String × JSEntry) × List Char)
  | 0, _ => none
  | fuel + 1, cs => parseMembersAux (parseVal fuel) (parseMembersJ fuel) cs

end

/-- `JSON.stringify(v)`. -/
def jsonStringify (v : JSVal) : String := String.mk (jsonChars v)

/-- `JSON.parse(s)`: `none` models a thrown `SyntaxError`.  The whole
input must be consumed; the fuel is ample for any parseable input since
every recursion step consumes at least one character. -/
def jsonParse (s : String) : Option JSVal :=
  match parseVal (s.data.length + 1) s.data with
  | some (v, []) => some v
  | _ => none

/-- The backing string-keyed storage facility (`localStorage`). -/
def Storage := List (String × String)

/-- `storage.getItem(key)`: `none` is the `null` miss. -/
def storageGet : Storage → String → Option String
  | [], _ => none
  | (k, v) :: st, key => if k = key then some v else storageGet st key

/-- `storage.setItem(key, value)`. -/
def storageSet : Storage → String → String → Storage
  | [], key, value => [(key, value)]
  | (k, v) :: st, key, value =>
    if k = key then (k, value) :: st else (k, v) :: storageSet st key value

namespace LocalStorageDB

/-- `LocalStorageDB.set`: a string is written verbatim, anything else is
JSON-encoded first. -/
def set (st : Storage) (key : String) (value : JSVal) : Storage :=
  storageSet st key
    (match value with
     | .vstr s => s
     | value => jsonStringify value)

/-- `LocalStorageDB.get`: a missing entry reads back as `null`
(`.ok none`); a stored empty string is falsy and is returned raw; any
other stored string is JSON-decoded, and a decode failure is the thrown
`SyntaxError` (`.error ()`). -/
def get (st : Storage) (key : String) : Except Unit (Option JSVal) :=
  match storageGet st key with
  | none => .ok none
  | some s =>
    if s = "" then .ok (some (.vstr ""))
    else
      match jsonParse s with
      | some v => .ok (some v)
      | none => .error ()

end LocalStorageDB

/-!
## The printed text parses back: tokens
-/

/-- The continuation after a printed number never starts with a digit,
so maximal munch stops exactly at the number's end. -/
def noDigitStart : List Char → Prop
  | [] => True
  | c :: _ => isDigitCh c = false

theorem isDigitCh_digitChar {d : Nat} (h : d < 10) : isDigitCh (digitChar d) = true := by
  interval_cases d <;> decide

theorem digitVal_digitChar {d : Nat} (h : d < 10) : digitVal (digitChar d) = d := by
  interval_cases d <;> decide

theorem natChars_all_digits (n : Nat) : ∀ c ∈ natChars n, isDigitCh c = true := by
  intro c hc
  unfold natChars at hc
  by_cases h0 : n = 0
  · rw [if_pos h0] at hc
    simp at hc
    subst hc
    decide
  · rw [if_neg h0, natDigitsRev_eq_digits n n le_rfl] at hc
    simp only [List.mem_map, List.mem_reverse] at hc
    obtain ⟨d, hd, hdc⟩ := hc
    rw [← hdc]
    exact isDigitCh_digitChar (Nat.digits_lt_base (by norm_num) hd)

theorem natChars_ne_nil (n : Nat) : natChars n ≠ [] := by
  unfold natChars
  by_cases h0 : n = 0
  · simp [h0]
  · rw [if_neg h0, natDigitsRev_eq_digits n n le_rfl]
    simp [Nat.digits_ne_nil_iff_ne_zero, h0]

theorem digitsToNat_natChars (n : Nat) : digitsToNat (natChars n) = n := by
  unfold natChars
  by_cases h0 : n = 0
  · subst h0
    decide
  · rw [if_neg h0, natDigitsRev_eq_digits n n le_rfl]
    unfold digitsToNat
    have hmap : ∀ l : List Nat, (∀ d ∈ l, d < 10) →
        List.map (digitVal ∘ digitChar) l = l := by
      intro l hl
      induction l with
      | nil => rfl
      | cons d ds ihl =>
        simp only [List.map_cons, Function.comp_apply,
          digitVal_digitChar (hl d (List.mem_cons_self _ _)),
          ihl (fun z hz => hl z (List.mem_cons_of_mem _ hz))]
    rw [List.map_map,
      hmap _ (fun d hd => Nat.digits_lt_base (by norm_num) (List.mem_reverse.mp hd)),
      List.reverse_reverse, Nat.ofDigits_digits]

theorem takeDigits_append {ds rest : List Char}
    (hds : ∀ c ∈ ds, isDigitCh c = true) (hrest : noDigitStart rest) :
    takeDigits (ds ++ rest) = (ds, rest) := by
  induction ds with
  | nil =>
    cases rest with
    | nil => rfl
    | cons c cs =>
      simp only [noDigitStart] at hrest
      simp [takeDigits, hrest]
  | cons c ds ih =>
    have hc := hds c (List.mem_cons_self _ _)
    have ih' := ih (fun z hz => hds z (List.mem_cons_of_mem _ hz))
    simp [takeDigits, hc, ih']

theorem String_mk_data (s : String) : String.mk s.data = s := rfl

theorem parseStrBody_escChars : ∀ (l rest : List Char),
    parseStrBody (escChars l ++ '"' :: rest) = some (l, rest) := by
  intro l
  induction l with
  | nil =>
    intro rest
    simp only [escChars, List.nil_append]
    rw [parseStrBody.eq_def]
    simp
  | cons c cs ih =>
    intro rest
    by_cases hc : (c = '"' || c = '\\') = true
    · have h1 : escChar c = ['\\', c] := by simp [escChar, hc]
      have h2 : escChars (c :: cs) ++ '"' :: rest =
          '\\' :: c :: (escChars cs ++ '"' :: rest) := by
        simp [escChars, h1]
      rw [h2, parseStrBody.eq_def]
      simp [hc, ih rest]
    · have h1 : escChar c = [c] := by simp [escChar, hc]
      have h2 : escChars (c :: cs) ++ '"' :: rest =
          c :: (escChars cs ++ '"' :: rest) := by
        simp [escChars, h1]
      simp only [Bool.or_eq_true, decide_eq_true_eq] at hc
      push_neg at hc
      rw [h2, parseStrBody.eq_def]
      simp [hc.1, hc.2, ih rest]

/-- First character of a printed value: never a closing bracket, so the
empty-container fast paths of the parser do not fire on a nonempty one. -/
theorem jsonChars_head {x : JSVal} (hx : jsonData x = true) :
    ∃ c cs, jsonChars x = c :: cs ∧ c ≠ ']' ∧ c ≠ rbrace := by
  cases x with
  | vnull => exact ⟨'n', _, rfl, by decide, by decide⟩
  | vbool b =>
    cases b with
    | false => exact ⟨'f', _, rfl, by decide, by decide⟩
    | true => exact ⟨'t', _, rfl, by decide, by decide⟩
  | vstr s => exact ⟨'"', _, rfl, by decide, by decide⟩
  | varr xs => exact ⟨'[', _, rfl, by decide, by decide⟩
  | vobj fs => exact ⟨lbrace, _, rfl, by decide, by decide⟩
  | undef => simp [jsonData] at hx
  | vfun => simp [jsonData] at hx
  | vnum n =>
    by_cases hneg : n < 0
    · refine ⟨'-', natChars n.natAbs, ?_, by decide, by decide⟩
      simp [jsonChars, intChars, hneg]
    · obtain ⟨c, ds, hnc⟩ := List.exists_cons_of_ne_nil (natChars_ne_nil n.natAbs)
      have hcd : isDigitCh c = true :=
        natChars_all_digits n.natAbs c (by rw [hnc]; exact List.mem_cons_self _ _)
      refine ⟨c, ds, ?_, ?_, ?_⟩
      · simp [jsonChars, intChars, hneg, hnc]
      · intro h; subst h; exact absurd hcd (by decide)
      · intro h; subst h; exact absurd hcd (by decide)

theorem arrItems_cons_of_jsonData {x : JSVal} {xs : List JSVal} {first : Bool}
    (hx : jsonData x = true) :
    arrItems (x :: xs) first =
      (if first then [] else [',']) ++ jsonChars x ++ arrItems xs false := by
  cases x <;> simp_all [arrItems, jsonData]

theorem objItems_cons_of_jsonData {k : String} {v : JSVal}
    {fs : List (String × JSEntry)} {first : Bool} (hv : jsonData v = true) :
    objItems ((k, .data v) :: fs) first =
      (if first then [] else [',']) ++ strLit k ++ ':' :: jsonChars v ++ objItems fs false := by
  cases v <;> simp_all [objItems, jsonData]

theorem jsonDataF_cons {k : String} {e : JSEntry} {fs : List (String × JSEntry)}
    (h : jsonDataF ((k, e) :: fs) = true) :
    ∃ v, e = .data v ∧ jsonData v = true ∧ jsonDataF fs = true := by
  cases e with
  | data v =>
    simp only [jsonDataF, Bool.and_eq_true] at h
    exact ⟨v, rfl, h.1, h.2⟩
  | accessor g sf gv => simp [jsonDataF] at h

theorem arrItems_false_noDigit {xs : List JSVal} {rest : List Char}
    (hxs : jsonDataL xs = true) :
    noDigitStart (arrItems xs false ++ (']' :: rest)) := by
  cases xs with
  | nil => simp [arrItems, noDigitStart]; decide
  | cons x xs =>
    simp only [jsonDataL, Bool.and_eq_true] at hxs
    rw [arrItems_cons_of_jsonData hxs.1]
    simp [noDigitStart]
    decide

theorem objItems_false_noDigit {fs : List (String × JSEntry)} {rest : List Char}
    (hfs : jsonDataF fs = true) :
    noDigitStart (objItems fs false ++ (rbrace :: rest)) := by
  cases fs with
  | nil => simp [objItems, noDigitStart]; decide
  | cons q fs =>
    obtain ⟨k, e⟩ := q
    obtain ⟨v, he, hv, _⟩ := jsonDataF_cons hfs
    subst he
    rw [objItems_cons_of_jsonData hv]
    simp [noDigitStart]
    decide

theorem String_data_mk (l : List Char) : (String.mk l).data = l := rfl

/-- The printed text of a value parses back to that value, leaving any
trailing text (that does not start with a digit) untouched; printed
element and member lists likewise parse back up to their closing
bracket.  The fuel only needs to dominate the value's size. -/
theorem parsePrintAux : ∀ fuel : Nat,
    (∀ v rest, jsonData v = true → sizeV v ≤ fuel → noDigitStart rest →
        parseVal fuel (jsonChars v ++ rest) = some (v, rest)) ∧
    (∀ xs rest, jsonDataL xs = true → xs ≠ [] → sizeL xs ≤ fuel →
        parseElemsJ fuel (arrItems xs true ++ ']' :: rest) = some (xs, rest)) ∧
    (∀ fs rest, jsonDataF fs = true → fs ≠ [] → sizeF fs ≤ fuel →
        parseMembersJ fuel (objItems fs true ++ rbrace :: rest) = some (fs, rest)) := by
  intro fuel
  induction fuel with
  | zero =>
    refine ⟨?_, ?_, ?_⟩
    · intro v rest _ hsz _
      have := sizeV_pos v
      omega
    · intro xs rest _ hne hsz
      cases xs with
      | nil => exact absurd rfl hne
      | cons x xs =>
        simp only [sizeL] at hsz
        omega
    · intro fs rest _ hne hsz
      cases fs with
      | nil => exact absurd rfl hne
      | cons f fs =>
        obtain ⟨k, e⟩ := f
        simp only [sizeF] at hsz
        omega
  | succ n ih =>
    obtain ⟨ihV, ihL, ihF⟩ := ih
    refine ⟨?_, ?_, ?_⟩
    · intro v rest hv hsz hrest
      cases v with
      | undef => simp [jsonData] at hv
      | vfun => simp [jsonData] at hv
      | vnull =>
        show parseVal (n + 1) ('n' :: 'u' :: 'l' :: 'l' :: rest) = some (.vnull, rest)
        rw [parseVal]
        simp +decide [parseValAux]
      | vbool b =>
        cases b with
        | true =>
          show parseVal (n + 1) ('t' :: 'r' :: 'u' :: 'e' :: rest) = some (.vbool true, rest)
          rw [parseVal]
          simp +decide [parseValAux]
        | false =>
          show parseVal (n + 1) ('f' :: 'a' :: 'l' :: 's' :: 'e' :: rest) =
            some (.vbool false, rest)
          rw [parseVal]
          simp +decide [parseValAux]
      | vstr s =>
        have h2 : jsonChars (.vstr s) ++ rest = '"' :: (escChars s.data ++ '"' :: rest) := by
          simp [jsonChars, strLit]
        rw [h2, parseVal]
        simp +decide [parseValAux, parseStrBody_escChars, String_mk_data]
      | vnum m =>
        by_cases hneg : m < 0
        · obtain ⟨c, ds, hnc⟩ := List.exists_cons_of_ne_nil (natChars_ne_nil m.natAbs)
          have ht : takeDigits (c :: (ds ++ rest)) = (c :: ds, rest) := by
            rw [show c :: (ds ++ rest) = natChars m.natAbs ++ rest by rw [hnc]; rfl]
            rw [takeDigits_append (natChars_all_digits m.natAbs) hrest, hnc]
          have h2 : jsonChars (.vnum m) ++ rest = '-' :: (c :: (ds ++ rest)) := by
            simp [jsonChars, intChars, hneg, hnc]
          have hm : -(digitsToNat (c :: ds) : Int) = m := by
            rw [← hnc, digitsToNat_natChars]
            omega
          rw [h2, parseVal]
          simp only [parseValAux]
          simp +decide [ht, hm]
        · obtain ⟨c, ds, hnc⟩ := List.exists_cons_of_ne_nil (natChars_ne_nil m.natAbs)
          have hcd : isDigitCh c = true :=
            natChars_all_digits m.natAbs c (by rw [hnc]; exact List.mem_cons_self _ _)
          have h2 : jsonChars (.vnum m) ++ rest = c :: (ds ++ rest) := by
            simp [jsonChars, intChars, hneg, hnc]
          have ht : takeDigits (c :: (ds ++ rest)) = (natChars m.natAbs, rest) := by
            rw [show c :: (ds ++ rest) = natChars m.natAbs ++ rest by rw [hnc]; rfl]
            exact takeDigits_append (natChars_all_digits m.natAbs) hrest
          have hm : (digitsToNat (natChars m.natAbs) : Int) = m := by
            rw [digitsToNat_natChars]
            omega
          rw [h2, parseVal]
          simp only [parseValAux, hcd, ht]
          simp +decide [hm]
      | varr xs =>
        have hxs : jsonDataL xs = true := by simpa [jsonData] using hv
        cases xs with
        | nil =>
          show parseVal (n + 1) ('[' :: ']' :: rest) = some (.varr [], rest)
          rw [parseVal]
          simp +decide [parseValAux]
        | cons x xs =>
          obtain ⟨hx, hxs'⟩ : jsonData x = true ∧ jsonDataL xs = true := by
            simpa [jsonDataL] using hxs
          obtain ⟨c, cs, hch, hc1, _⟩ := jsonChars_head hx
          have harr : arrItems (x :: xs) true = jsonChars x ++ arrItems xs false := by
            rw [arrItems_cons_of_jsonData hx]
            simp
          have h2 : jsonChars (.varr (x :: xs)) ++ rest =
              '[' :: (c :: (cs ++ (arrItems xs false ++ ']' :: rest))) := by
            simp [jsonChars, harr, hch]
          have he : parseElemsJ n (arrItems (x :: xs) true ++ ']' :: rest) =
              some (x :: xs, rest) := by
            apply ihL _ _ hxs (List.cons_ne_nil _ _)
            simp only [sizeV] at hsz
            omega
          have he' : parseElemsJ n (c :: (cs ++ (arrItems xs false ++ ']' :: rest))) =
              some (x :: xs, rest) := by
            rw [show c :: (cs ++ (arrItems xs false ++ ']' :: rest)) =
                arrItems (x :: xs) true ++ ']' :: rest by rw [harr, hch]; simp]
            exact he
          rw [h2, parseVal]
          simp +decide [parseValAux, hc1, he']
      | vobj fs =>
        have hfs : jsonDataF fs = true := by simpa [jsonData] using hv
        cases fs with
        | nil =>
          show parseVal (n + 1) (lbrace :: rbrace :: rest) = some (.vobj [], rest)
          rw [parseVal]
          simp +decide [parseValAux, lbrace, rbrace]
        | cons f fs =>
          obtain ⟨k, e⟩ := f
          obtain ⟨v, he, hv', hfs'⟩ := jsonDataF_cons hfs
          subst he
          have hobj : objItems ((k, .data v) :: fs) true =
              strLit k ++ ':' :: jsonChars v ++ objItems fs false := by
            rw [objItems_cons_of_jsonData hv']
            simp
          have h2 : jsonChars (.vobj ((k, .data v) :: fs)) ++ rest =
              lbrace :: ('"' :: ((escChars k.data ++ ['"']) ++
                (':' :: jsonChars v ++ objItems fs false ++ rbrace :: rest))) := by
            simp [jsonChars, hobj, strLit]
          have hm : parseMembersJ n (objItems ((k, .data v) :: fs) true ++ rbrace :: rest) =
              some ((k, .data v) :: fs, rest) := by
            apply ihF _ _ hfs (List.cons_ne_nil _ _)
            simp only [sizeV] at hsz
            omega
          have hm' : parseMembersJ n ('"' :: (escChars k.data ++ '"' :: ':' ::
              (jsonChars v ++ (objItems fs false ++ rbrace :: rest)))) =
              some ((k, .data v) :: fs, rest) := by
            rw [show '"' :: (escChars k.data ++ '"' :: ':' ::
                (jsonChars v ++ (objItems fs false ++ rbrace :: rest))) =
                objItems ((k, .data v) :: fs) true ++ rbrace :: rest by
              rw [hobj]; simp [strLit]]
            exact hm
          rw [h2, parseVal]
          simp +decide [parseValAux, hm']
    · intro xs rest hxs hne hsz
      cases xs with
      | nil => exact absurd rfl hne
      | cons x xs =>
        obtain ⟨hx, hxs'⟩ : jsonData x = true ∧ jsonDataL xs = true := by
          simpa [jsonDataL] using hxs
        simp only [sizeL] at hsz
        have hV := ihV x (arrItems xs false ++ ']' :: rest) hx
          (by have := sizeV_pos x; omega) (arrItems_false_noDigit hxs')
        have h2 : arrItems (x :: xs) true ++ ']' :: rest =
            jsonChars x ++ (arrItems xs false ++ ']' :: rest) := by
          rw [arrItems_cons_of_jsonData hx]
          simp
        rw [h2, parseElemsJ]
        simp only [parseElemsAux, hV]
        cases xs with
        | nil => simp +decide [arrItems]
        | cons y ys =>
          obtain ⟨hy, hys⟩ : jsonData y = true ∧ jsonDataL ys = true := by
            simpa [jsonDataL] using hxs'
          have harr2 : arrItems (y :: ys) false =
              ',' :: (jsonChars y ++ arrItems ys false) := by
            rw [arrItems_cons_of_jsonData hy]
            simp
          have hrec : parseElemsJ n (arrItems (y :: ys) true ++ ']' :: rest) =
              some (y :: ys, rest) := by
            apply ihL _ _ hxs' (List.cons_ne_nil _ _)
            have := sizeV_pos x
            omega
          have hrec' : parseElemsJ n (jsonChars y ++ (arrItems ys false ++ ']' :: rest)) =
              some (y :: ys, rest) := by
            rw [show jsonChars y ++ (arrItems ys false ++ ']' :: rest) =
                arrItems (y :: ys) true ++ ']' :: rest by
              rw [arrItems_cons_of_jsonData hy]; simp]
            exact hrec
          rw [harr2]
          simp +decide [hrec']
    · intro fs rest hfs hne hsz
      cases fs with
      | nil => exact absurd rfl hne
      | cons f fs =>
        obtain ⟨k, e⟩ := f
        obtain ⟨v, he, hv', hfs'⟩ := jsonDataF_cons hfs
        subst he
        simp only [sizeF, sizeE] at hsz
        have hV := ihV v (objItems fs false ++ rbrace :: rest) hv' (by omega)
          (objItems_false_noDigit hfs')
        have h2 : objItems ((k, .data v) :: fs) true ++ rbrace :: rest =
            '"' :: (escChars k.data ++ '"' ::
              (':' :: (jsonChars v ++ (objItems fs false ++ rbrace :: rest)))) := by
          rw [objItems_cons_of_jsonData hv']
          simp [strLit]
        rw [h2, parseMembersJ]
        simp only [parseMembersAux, parseStrBody_escChars, hV, String_mk_data]
        cases fs with
        | nil => simp +decide [objItems, rbrace]
        | cons g fs₂ =>
          obtain ⟨k₂, e₂⟩ := g
          obtain ⟨v₂, he₂, hv₂, hfs₂⟩ := jsonDataF_cons hfs'
          subst he₂
          have hobj2 : objItems ((k₂, .data v₂) :: fs₂) false =
              ',' :: (strLit k₂ ++ ':' :: jsonChars v₂ ++ objItems fs₂ false) := by
            rw [objItems_cons_of_jsonData hv₂]
            simp
          have hrec : parseMembersJ n (objItems ((k₂, .data v₂) :: fs₂) true ++
              rbrace :: rest) = some ((k₂, .data v₂) :: fs₂, rest) := by
            apply ihF _ _ hfs' (List.cons_ne_nil _ _)
            have := sizeV_pos v
            omega
          have hrec' : parseMembersJ n (strLit k₂ ++ ':' ::
              (jsonChars v₂ ++ (objItems fs₂ false ++ rbrace :: rest))) =
              some ((k₂, .data v₂) :: fs₂, rest) := by
            rw [show strLit k₂ ++ ':' ::
                (jsonChars v₂ ++ (objItems fs₂ false ++ rbrace :: rest)) =
                objItems ((k₂, .data v₂) :: fs₂) true ++ rbrace :: rest by
              rw [objItems_cons_of_jsonData hv₂]; simp]
            exact hrec
          rw [hobj2]
          simp +decide [hrec']

/-- A value's size never exceeds the length of its printed text, so the
`text.length + 1` fuel that `jsonParse` passes is always sufficient. -/
theorem jsonCharsLong : ∀ bound : Nat,
    (∀ v, sizeV v ≤ bound → jsonData v = true → sizeV v ≤ (jsonChars v).length) ∧
    (∀ xs, sizeL xs ≤ bound → jsonDataL xs = true → sizeL xs ≤ (arrItems xs false).length) ∧
    (∀ fs, sizeF fs ≤ bound → jsonDataF fs = true →
        sizeF fs ≤ (objItems fs false).length) := by
  intro bound
  induction bound with
  | zero =>
    refine ⟨?_, ?_, ?_⟩
    · intro v hs _
      have := sizeV_pos v
      omega
    · intro xs hs _
      cases xs with
      | nil => simp [sizeL, arrItems]
      | cons x xs =>
        simp only [sizeL] at hs
        omega
    · intro fs hs _
      cases fs with
      | nil => simp [sizeF, objItems]
      | cons f fs =>
        obtain ⟨k, e⟩ := f
        simp only [sizeF] at hs
        omega
  | succ n ih =>
    obtain ⟨ihV, ihL, ihF⟩ := ih
    refine ⟨?_, ?_, ?_⟩
    · intro v hs hd
      cases v with
      | undef => simp [jsonData] at hd
      | vfun => simp [jsonData] at hd
      | vnull => simp [sizeV, jsonChars]
      | vbool b => cases b <;> simp [sizeV, jsonChars]
      | vnum m =>
        obtain ⟨c, cs, hc, _, _⟩ := jsonChars_head hd
        have h1 : sizeV (JSVal.vnum m) = 1 := rfl
        rw [h1, hc]
        simp
      | vstr s =>
        have h1 : sizeV (JSVal.vstr s) = 1 := rfl
        have h2 : (jsonChars (.vstr s)).length = 2 + (escChars s.data).length := by
          simp [jsonChars, strLit]
          omega
        omega
      | varr xs =>
        have hxs : jsonDataL xs = true := by simpa [jsonData] using hd
        have hlen : (jsonChars (.varr xs)).length = 2 + (arrItems xs true).length := by
          simp [jsonChars]
          omega
        simp only [sizeV] at hs ⊢
        rw [hlen]
        cases xs with
        | nil =>
          simp [sizeL]
          omega
        | cons x xs =>
          obtain ⟨hx, hxs'⟩ : jsonData x = true ∧ jsonDataL xs = true := by
            simpa [jsonDataL] using hxs
          have hL := ihL (x :: xs) (by omega) hxs
          have ht : arrItems (x :: xs) true = jsonChars x ++ arrItems xs false := by
            rw [arrItems_cons_of_jsonData hx]
            simp
          have hf : arrItems (x :: xs) false =
              ',' :: (jsonChars x ++ arrItems xs false) := by
            rw [arrItems_cons_of_jsonData hx]
            simp
          have hlen2 : (arrItems (x :: xs) false).length =
              1 + (arrItems (x :: xs) true).length := by
            rw [ht, hf]
            simp
            omega
          omega
      | vobj fs =>
        have hfs : jsonDataF fs = true := by simpa [jsonData] using hd
        have hlen : (jsonChars (.vobj fs)).length = 2 + (objItems fs true).length := by
          simp [jsonChars]
          omega
        simp only [sizeV] at hs ⊢
        rw [hlen]
        cases fs with
        | nil =>
          simp [sizeF]
          omega
        | cons f fs =>
          obtain ⟨k, e⟩ := f
          obtain ⟨v, he, hv', hfs'⟩ := jsonDataF_cons hfs
          subst he
          have hF := ihF ((k, .data v) :: fs) (by omega) hfs
          have ht : objItems ((k, .data v) :: fs) true =
              strLit k ++ ':' :: jsonChars v ++ objItems fs false := by
            rw [objItems_cons_of_jsonData hv']
            simp
          have hf2 : objItems ((k, .data v) :: fs) false =
              ',' :: (strLit k ++ ':' :: jsonChars v ++ objItems fs false) := by
            rw [objItems_cons_of_jsonData hv']
            simp
          have hlen2 : (objItems ((k, .data v) :: fs) false).length =
              1 + (objItems ((k, .data v) :: fs) true).length := by
            rw [ht, hf2]
            simp
            omega
          omega
    · intro xs hs hd
      cases xs with
      | nil => simp [sizeL, arrItems]
      | cons x xs =>
        obtain ⟨hx, hxs'⟩ : jsonData x = true ∧ jsonDataL xs = true := by
          simpa [jsonDataL] using hd
        simp only [sizeL] at hs ⊢
        have hVx := ihV x (by have := sizeV_pos x; omega) hx
        have hLx := ihL xs (by have := sizeV_pos x; omega) hxs'
        have hf : arrItems (x :: xs) false =
            ',' :: (jsonChars x ++ arrItems xs false) := by
          rw [arrItems_cons_of_jsonData hx]
          simp
        rw [hf]
        simp only [List.length_cons, List.length_append]
        omega
    · intro fs hs hd
      cases fs with
      | nil => simp [sizeF, objItems]
      | cons f fs =>
        obtain ⟨k, e⟩ := f
        obtain ⟨v, he, hv', hfs'⟩ := jsonDataF_cons hd
        subst he
        simp only [sizeF, sizeE] at hs ⊢
        have hVv := ihV v (by omega) hv'
        have hFf := ihF fs (by omega) hfs'
        have hf2 : objItems ((k, .data v) :: fs) false =
            ',' :: (strLit k ++ ':' :: jsonChars v ++ objItems fs false) := by
          rw [objItems_cons_of_jsonData hv']
          simp
        rw [hf2]
        simp only [List.length_cons, List.length_append]
        omega

/-- `JSON.parse` inverts `JSON.stringify` on every value in the wire
format's domain. -/
theorem jsonParse_stringify {v : JSVal} (hv : jsonData v = true) :
    jsonParse (jsonStringify v) = some v := by
  have hlen : sizeV v ≤ (jsonChars v).length :=
    (jsonCharsLong (sizeV v)).1 v le_rfl hv
  have h := (parsePrintAux ((jsonChars v).length + 1)).1 v [] hv (by omega) trivial
  rw [List.append_nil] at h
  unfold jsonParse jsonStringify
  rw [String_data_mk, h]

theorem storageGet_storageSet (st : Storage) (key value : String) :
    storageGet (storageSet st key value) key = some value := by
  induction st with
  | nil => simp [storageSet, storageGet]
  | cons p st ih =>
    obtain ⟨k, v⟩ := p
    by_cases hk : k = key
    · subst hk
      simp [storageSet, storageGet]
    · simp [storageSet, storageGet, hk, ih]

theorem jsonChars_ne_nil {v : JSVal} (hv : jsonData v = true) : jsonChars v ≠ [] := by
  obtain ⟨c, cs, hc, _, _⟩ := jsonChars_head hv
  simp [hc]

theorem lsdb_set_nonstring {v : JSVal} (hs : isStringV v = false) (st : Storage)
    (key : String) : LocalStorageDB.set st key v = storageSet st key (jsonStringify v) := by
  cases v <;> first
    | rfl
    | simp [isStringV] at hs

/-- C2, counterexample: the adapter's `set` writes a plain string
verbatim, but `get` unconditionally JSON-decodes any nonempty stored
string, so a string that is not valid JSON text — here `"hello world"`
— does not read back: the subsequent `get` throws a `SyntaxError`
instead of returning the value originally written. -/
theorem c2_storage_roundtrip_counterexample :
    LocalStorageDB.get (LocalStorageDB.set [] "test" (.vstr "hello world")) "test" =
      .error () := by
  decide

/-- C2, amended: for every JSON-representable value that is not a
string, a `LocalStorageDB.get` following a `LocalStorageDB.set` of the
same key succeeds with no decode error and returns the value originally
written.  (For strings the verbatim write and the unconditional JSON
decode in `get` do not cancel, as the counterexample shows.) -/
theorem c2_storage_roundtrip_nonstring (st : Storage) (key : String) (v : JSVal)
    (hv : jsonData v = true) (hs : isStringV v = false) :
    LocalStorageDB.get (LocalStorageDB.set st key v) key = .ok (some v) := by
  rw [lsdb_set_nonstring hs]
  have hget := storageGet_storageSet st key (jsonStringify v)
  have hne : jsonStringify v ≠ "" := by
    intro h
    have hd : jsonChars v = [] := congrArg String.data h
    exact jsonChars_ne_nil hv hd
  unfold LocalStorageDB.get
  simp only [hget]
  rw [if_neg hne, jsonParse_stringify hv]

theorem c2_storage_roundtrip_nonstring_witness :
    jsonData (JSVal.vobj [("a", JSEntry.data (JSVal.vnum 10))]) = true ∧
    isStringV (JSVal.vobj [("a", JSEntry.data (JSVal.vnum 10))]) = false ∧
    LocalStorageDB.get
        (LocalStorageDB.set [] "k" (JSVal.vobj [("a", JSEntry.data (JSVal.vnum 10))]))
        "k" =
      .ok (some (JSVal.vobj [("a", JSEntry.data (JSVal.vnum 10))])) :=
  ⟨by decide, by decide,
    c2_storage_roundtrip_nonstring [] "k" (JSVal.vobj [("a", JSEntry.data (JSVal.vnum 10))])
      (by decide) (by decide)⟩

end ValtioCache
